import Mathlib

/-!
Verification development for the gradebook name-reconciliation and CSV-merge
core of the agentic-notebook-marker repository.

Python strings are embedded as `List Char` (`Str`); CSV rows (Python dicts
produced by `csv.DictReader`) are embedded as association lists with
insertion-order keys (`Row`).  Python dict lookup/assignment is modelled by
first-occurrence lookup and replace-or-append assignment, which agrees with
dict semantics whenever keys are distinct (as `DictReader` guarantees), while
dict construction from a sequence with possibly-duplicated keys is modelled by
a left fold of replace-or-append assignment (last write wins, as in Python).

Character-level operations (`str.lower`, `str.strip`, `str.split`, the regex
character classes `\s`, `\d`, `[a-zA-Z]`) are embedded with their ASCII
meaning; the repository's data is ASCII apart from the UTF-8 byte-order mark,
which is represented exactly.
-/

namespace Marker

/-- Python strings as lists of characters. -/
abbrev Str := List Char

/-- Convert a Lean string literal to the character list used by the model. -/
def chars (s : String) : Str := s.data

/-- Python `str.isspace` on the ASCII whitespace characters, the set used by
`str.split()` and `str.strip()` in this model. -/
def isPySpace (c : Char) : Bool :=
  decide (c = ' ' ∨ c = '\t' ∨ c = '\n' ∨ c = '\x0b' ∨ c = '\x0c' ∨ c = '\r')

/-- Drop leading Python whitespace. -/
def dropSpaces : Str → Str
  | [] => []
  | c :: cs => if isPySpace c then dropSpaces cs else c :: cs

/-- Python `str.strip()`: remove leading and trailing whitespace. -/
def trimPy (s : Str) : Str := (dropSpaces ((dropSpaces s).reverse)).reverse

/-- ASCII lower-casing of one character, as Python `str.lower` acts on the
ASCII range. -/
def lowerChar (c : Char) : Char :=
  if 65 ≤ c.toNat ∧ c.toNat ≤ 90 then Char.ofNat (c.toNat + 32) else c

/-- Python `str.lower()` (ASCII fragment). -/
def lowerStr (s : Str) : Str := s.map lowerChar

/-- Python `str.replace(' ', '')`: delete every space character (U+0020 only,
exactly as the source calls it). -/
def removeSpaceChars : Str → Str
  | [] => []
  | c :: cs => if c = ' ' then removeSpaceChars cs else c :: removeSpaceChars cs

/-- Python `s.lstrip(BOM)`: drop every leading byte-order mark U+FEFF. -/
def stripBom (s : Str) : Str := s.dropWhile (fun c => decide (c = '\uFEFF'))

/-- Python `s.replace(',', ' ')`. -/
def replaceComma (s : Str) : Str := s.map (fun c => if c = ',' then ' ' else c)

/-- Python `str.split()`: split on runs of whitespace, discarding empty
tokens. -/
def words : Str → List Str
  | [] => []
  | c :: cs =>
    let ws := words cs
    if isPySpace c then ws
    else match cs with
      | [] => [[c]]
      | d :: _ =>
        if isPySpace d then [c] :: ws
        else match ws with
          | [] => [[c]]
          | t :: rest => (c :: t) :: rest

/-- Python `' '.join(tokens)`. -/
def joinW : List Str → Str
  | [] => []
  | [t] => t
  | t :: u :: ts => t ++ ' ' :: joinW (u :: ts)

/-- Python `a.startswith(b)` reads `isPre b a`: the first argument is a prefix
of the second. -/
def isPre : Str → Str → Bool
  | [], _ => true
  | _ :: _, [] => false
  | a :: ps, b :: ss => if a = b then isPre ps ss else false

/-- Python `needle in hay` substring test. -/
def strIn : Str → Str → Bool
  | needle, [] => isPre needle []
  | needle, c :: cs => isPre needle (c :: cs) || strIn needle cs

/-- Case-insensitive prefix test (regex matching of a literal under
`re.IGNORECASE`). -/
def isPreCI : Str → Str → Bool
  | [], _ => true
  | _ :: _, [] => false
  | a :: ps, b :: ss => if lowerChar a = lowerChar b then isPreCI ps ss else false

/-- First-occurrence lookup in an association list (Python dict access for
distinct keys). -/
def lookupA {β : Type} : List (Str × β) → Str → Option β
  | [], _ => none
  | (k, v) :: rest, key => if k = key then some v else lookupA rest key

/-- Python dict assignment `d[key] = v`: replace the first binding of
`key`, or append a new binding. -/
def assocSet {β : Type} : List (Str × β) → Str → β → List (Str × β)
  | [], key, v => [(key, v)]
  | (k, w) :: rest, key, v =>
    if k = key then (key, v) :: rest else (k, w) :: assocSet rest key v

/-- Update the value stored at a key in place (mutation of a dict entry). -/
def assocModify {β : Type} (f : β → β) : List (Str × β) → Str → List (Str × β)
  | [], _ => []
  | (k, w) :: rest, key =>
    if k = key then (k, f w) :: rest else (k, w) :: assocModify f rest key

/-- A CSV row as produced by `csv.DictReader`: column name to field value, in
column order. -/
abbrev Row := List (Str × Str)

/-- Python `row.get(k, '')` (and plain `row[k]` where the source guarantees
the key exists). -/
def rowGet (r : Row) (k : Str) : Str := (lookupA r k).getD []

/-- Python `k in row`. -/
def rowHas (r : Row) (k : Str) : Bool := (lookupA r k).isSome

/-- Python `row[k] = v`. -/
def rowSet (r : Row) (k v : Str) : Row := assocSet r k v

/-- Python `k in columns` for a plain list of column names. -/
def hasCol : List Str → Str → Bool
  | [], _ => false
  | c :: cs, k => if c = k then true else hasCol cs k

/-- The row actually written by `csv.DictWriter` for the given field names:
each named column in order, missing keys written as the empty string
(`restval` default). -/
def projectRow (fns : List Str) (r : Row) : Row := fns.map (fun c => (c, rowGet r c))

end Marker

namespace ApplyTranslation

open Marker

/-- The `strip_bom` helper of `src/apply_translation.py`. -/
def strip_bom (s : Str) : Str := stripBom s

/-- The `normalize_name` of `src/apply_translation.py`: strip the BOM, turn
commas into spaces, collapse whitespace, lower-case. -/
def normalize_name (name : Str) : Str :=
  lowerStr (joinW (words (replaceComma (strip_bom name))))

/-- The first-name column aliases checked by `get_student_name_from_row`. -/
def firstNameCols : List Str :=
  [chars ("First name"), chars ("First Name"), chars ("first_name"),
   chars ("FirstName"), chars ("first name")]

/-- The last-name column aliases checked by `get_student_name_from_row`. -/
def lastNameCols : List Str :=
  [chars ("Last name"), chars ("Last Name"), chars ("last_name"),
   chars ("LastName"), chars ("last name"), chars ("Surname"), chars ("surname")]

/-- The combined exclusion list of lines 101-102 of the source: the declared
student column is ignored when it is one of the first/last-name aliases. -/
def firstLastAliasCols : List Str := firstNameCols ++ lastNameCols

/-- The single-name column aliases of line 106. -/
def singleNameCols : List Str :=
  [chars ("Student Name"), chars ("student_name"), chars ("Name"),
   chars ("name"), chars ("Full Name"), chars ("full_name")]

/-- Rebuild the row with BOM-stripped keys, as the dict comprehension on line
77 does (later duplicates overwrite earlier ones). -/
def normRowKeys (row : Row) : Row :=
  row.foldl (fun d p => rowSet d (stripBom p.1) p.2) []

/-- Scan a list of alias columns and return the stripped value of the first
alias that is present with a non-empty stripped value, or the empty string. -/
def scanAlias (nr : Row) : List Str → Str
  | [] => []
  | c :: cs =>
    if rowHas nr c ∧ trimPy (rowGet nr c) ≠ [] then trimPy (rowGet nr c)
    else scanAlias nr cs

/-- The `get_student_name_from_row` of `src/apply_translation.py`. -/
def get_student_name_from_row (row : Row) (student_col : Str)
    (_fieldnames : List Str) : Str :=
  let nr := normRowKeys row
  let first_name := scanAlias nr firstNameCols
  let last_name := scanAlias nr lastNameCols
  if first_name ≠ [] ∧ last_name ≠ [] then first_name ++ ' ' :: last_name
  else
    let nsc := stripBom student_col
    if rowHas nr nsc ∧ trimPy (rowGet nr nsc) ≠ [] ∧ hasCol firstLastAliasCols nsc = false then
      trimPy (rowGet nr nsc)
    else
      let single := scanAlias nr singleNameCols
      if single ≠ [] then single
      else if first_name ≠ [] then first_name
      else if last_name ≠ [] then last_name
      else []

/-- The fixed encoding list of `detect_encoding` (line 34). -/
def encodings : List String := ["utf-8", "latin-1", "cp1252", "iso-8859-1"]

/-- The retry loop of `detect_encoding`, abstracted over which encodings can
decode the file; returns the fallback default when all fail (line 45). -/
def detectEncodingLoop (decodes : String → Bool) : List String → String
  | [] => "utf-8"
  | e :: es => if decodes e then e else detectEncodingLoop decodes es

/-- The `detect_encoding` of `src/apply_translation.py`. -/
def detect_encoding (decodes : String → Bool) : String :=
  detectEncodingLoop decodes encodings

/-- The encoding actually used to read a gradebook (lines 130-133):
`gradebook_config.get('encoding', 'utf-8')`, with detection only when that
value is the string `auto`. -/
def readEncodingFor (enc? : Option String) (decodes : String → Bool) : String :=
  let e := enc?.getD ("utf-8")
  if e = "auto" then detect_encoding decodes else e

/-- Whether reading the gradebook succeeds: the chosen encoding decodes it. -/
def readSucceeds (enc? : Option String) (decodes : String → Bool) : Bool :=
  decodes (readEncodingFor enc? decodes)

/-- One entry of `mapping['gradebooks']` as consumed by
`apply_gradebook_updates`: path, section name, optional encoding, the
`columns_to_add` dict as a (name, position) list in insertion order, the
student mappings as (gradebook_name, grades_name) pairs, and the declared
student column. -/
structure GradebookConfig where
  path : Str
  sectionName : Str
  encoding? : Option String
  columnsToAdd : List (Str × Nat)
  studentMappings : List (Str × Str)
  studentColumn : Str

/-- Stable insertion of a column by its position index: under the right fold
of `newColumnsOf`, an element is inserted before the already-placed elements
of equal position, which come later in the configuration, so the sort is
stable exactly as Python `sorted` is. -/
def insertByPos (x : Str × Nat) : List (Str × Nat) → List (Str × Nat)
  | [] => [x]
  | y :: ys => if x.2 ≤ y.2 then x :: y :: ys else y :: insertByPos x ys

/-- Python `sorted(columns_to_add.keys(), key=position)` (line 143): a stable
sort of the column names by their configured position. -/
def newColumnsOf (cfg : GradebookConfig) : List Str :=
  (cfg.columnsToAdd.foldr insertByPos []).map (fun p => p.1)

/-- Lines 152-155: append each new column that is not already a fieldname. -/
def updatedFieldnamesOf (fieldnames : List Str) (newColumns : List Str) : List Str :=
  newColumns.foldl (fun fns col => if hasCol fns col then fns else fns ++ [col]) fieldnames

/-- The normalized student-mapping dict of lines 159-160. -/
def mappingOf (cfg : GradebookConfig) : List (Str × Str) :=
  cfg.studentMappings.foldl (fun d m => assocSet d (normalize_name m.1) m.2) []

/-- Lines 177-187: copy the matched grade record's fields into the row, for
exactly the configured new columns. -/
def updateRowWithGrades (newColumns : List Str) (gradeData : Row) (row : Row) : Row :=
  let r1 := if hasCol newColumns (chars ("Total Mark")) then
    rowSet row (chars ("Total Mark")) (rowGet gradeData (chars ("Total Mark"))) else row
  let r2 := if hasCol newColumns (chars ("Feedback Card")) then
    rowSet r1 (chars ("Feedback Card")) (rowGet gradeData (chars ("Feedback Card"))) else r1
  newColumns.foldl
    (fun r col =>
      if isPre (chars ("Activity ")) col ∧ rowHas gradeData col then
        rowSet r col (rowGet gradeData col)
      else r)
    r2

/-- The body of the row loop of lines 167-191: the possibly-updated row and
whether an update was applied to it. -/
def processRow (studentMapping : List (Str × Str)) (grades : List (Str × Row))
    (student_col : Str) (fieldnames : List Str) (newColumns : List Str)
    (row : Row) : Row × Bool :=
  let gradebook_name := get_student_name_from_row row student_col fieldnames
  match lookupA studentMapping (normalize_name gradebook_name) with
  | none => (row, false)
  | some grades_name =>
    match lookupA grades grades_name with
    | none => (row, false)
    | some grade_data => (updateRowWithGrades newColumns grade_data row, true)

/-- The per-gradebook summary returned by `apply_gradebook_updates`
(lines 211-216). -/
structure MergeResult where
  sectionName : Str
  totalStudents : Nat
  updatesApplied : Nat
  columnsAdded : List Str
  deriving DecidableEq

/-- The `apply_gradebook_updates` of `src/apply_translation.py`, applied to a
gradebook file already read as fieldnames and rows: returns the rows as the
`csv.DictWriter` writes them, together with the merge summary. -/
def apply_gradebook_updates (cfg : GradebookConfig) (grades : List (Str × Row))
    (fieldnames : List Str) (rows : List Row) : List Row × MergeResult :=
  let newColumns := newColumnsOf cfg
  let updatedFieldnames := updatedFieldnamesOf fieldnames newColumns
  let studentMapping := mappingOf cfg
  let processed := rows.map (processRow studentMapping grades cfg.studentColumn fieldnames newColumns)
  let written := processed.map (fun p => projectRow updatedFieldnames p.1)
  (written,
   { sectionName := cfg.sectionName
     totalStudents := rows.length
     updatesApplied := (processed.filter (fun p => p.2)).length
     columnsAdded := newColumns.filter (fun c => hasCol fieldnames c = false) })

/-- The gradebook loop of `main` (lines 337-340): each gradebook is opened and
processed in turn, with no exception handling, so a missing gradebook file
raises `FileNotFoundError` out of the loop and aborts the whole run.  The
file system is abstracted as a partial map from paths to parsed CSV content. -/
def runGradebooks (fs : Str → Option (List Str × List Row))
    (grades : List (Str × Row)) : List GradebookConfig → Except Str (List MergeResult)
  | [] => Except.ok []
  | cfg :: rest =>
    match fs cfg.path with
    | none => Except.error cfg.path
    | some (fieldnames, rows) =>
      match runGradebooks fs grades rest with
      | Except.error p => Except.error p
      | Except.ok rs => Except.ok ((apply_gradebook_updates cfg grades fieldnames rows).2 :: rs)

end ApplyTranslation

namespace FixGrades

open Marker

/-- Regex atoms needed by `utils/fix_grades.py`: a case-insensitive literal,
an optional single character (`s?`), greedy whitespace (`\s*`), exactly `n`
digits (`\d{n}`), one-or-more digits (`\d+`), greedy non-letters
(`[^a-zA-Z]*`), and greedy not-a-given-character (`[^c]*`).  For every
pattern the source uses, the following greedy left-to-right matcher agrees
with Python `re`, because no atom can consume a character the next atom
needs. -/
inductive Pat where
  | lit (cs : Str)
  | opt (c : Char)
  | ws
  | digitsN (n : Nat)
  | digitsPlus
  | nonAlphaStar
  | tillChar (c : Char)
  deriving DecidableEq

/-- ASCII digit test (`\d` restricted to ASCII, as the data is). -/
def isDigitCh (c : Char) : Bool := decide (48 ≤ c.toNat ∧ c.toNat ≤ 57)

/-- ASCII letter test (`[a-zA-Z]`). -/
def isAsciiLetter (c : Char) : Bool :=
  decide ((65 ≤ c.toNat ∧ c.toNat ≤ 90) ∨ (97 ≤ c.toNat ∧ c.toNat ≤ 122))

/-- Greedy matcher for a pattern list at the start of the string: returns the
remainder after the match, or `none`. -/
def matchPat : List Pat → Str → Option Str
  | [], s => some s
  | Pat.lit l :: ps, s =>
    if isPreCI l s then matchPat ps (s.drop l.length) else none
  | Pat.opt c :: ps, s =>
    match s with
    | [] => matchPat ps []
    | d :: ds => if lowerChar d = lowerChar c then matchPat ps ds else matchPat ps (d :: ds)
  | Pat.ws :: ps, s => matchPat ps (s.dropWhile isPySpace)
  | Pat.digitsN n :: ps, s =>
    if (s.take n).length = n ∧ (s.take n).all isDigitCh then matchPat ps (s.drop n) else none
  | Pat.digitsPlus :: ps, s =>
    match s with
    | [] => none
    | d :: _ => if isDigitCh d then matchPat ps (s.dropWhile isDigitCh) else none
  | Pat.nonAlphaStar :: ps, s => matchPat ps (s.dropWhile (fun c => !isAsciiLetter c))
  | Pat.tillChar c :: ps, s => matchPat ps (s.dropWhile (fun d => decide (d ≠ c)))

/-- Python `re.sub(pattern, repl, s)` for the unanchored patterns of the
source: scan left to right, replace each non-overlapping match and continue
after it.  The fuel argument, initialised to the string length, only makes the
recursion structural: a successful match always consumes at least one
character for the source's patterns (none can match the empty string), so the
fuel never runs out and the guard branch that would skip a non-shrinking
match is never exercised. -/
def gsubAux (pats : List Pat) (repl : Str) : Nat → Str → Str
  | _, [] => []
  | 0, s => s
  | Nat.succ fuel, c :: cs =>
    match matchPat pats (c :: cs) with
    | some rest =>
      if rest.length < (c :: cs).length then repl ++ gsubAux pats repl fuel rest
      else c :: gsubAux pats repl fuel cs
    | none => c :: gsubAux pats repl fuel cs

/-- Python `re.sub` over the whole string. -/
def gsub (pats : List Pat) (repl : Str) (s : Str) : Str := gsubAux pats repl s.length s

/-- The anchored prefix pattern `^Lab\s*\d+[^a-zA-Z]*` of line 40: because of
the anchor it is tried at position 0 only. -/
def dropLabTitle (s : Str) : Str :=
  match matchPat [Pat.lit (chars ("Lab")), Pat.ws, Pat.digitsPlus, Pat.nonAlphaStar] s with
  | some rest => rest
  | none => s

/-- The unanchored course-title patterns of lines 41-54, in source order; each
is a case-insensitive literal with optional plural characters followed by
`\s*`. -/
def titlePats : List (List Pat) :=
  [[Pat.lit (chars ("Decision Tree Classifier")), Pat.ws],
   [Pat.lit (chars ("Hyperparameter Tuning")), Pat.ws],
   [Pat.lit (chars ("Linear Regression")), Pat.ws],
   [Pat.lit (chars ("Random Forest")), Pat.opt 's', Pat.ws],
   [Pat.lit (chars ("Linear and Logistic Regression")), Pat.ws],
   [Pat.lit (chars ("Hard Margin SVM")), Pat.opt 's', Pat.ws],
   [Pat.lit (chars ("Soft Margin SVM")), Pat.opt 's', Pat.lit (chars (" and Kernel")), Pat.opt 's', Pat.ws],
   [Pat.lit (chars ("Neural Network")), Pat.opt 's', Pat.lit (chars (" with NumPy")), Pat.ws],
   [Pat.lit (chars ("Neural Network")), Pat.opt 's', Pat.lit (chars (" using PyTorch")), Pat.ws],
   [Pat.lit (chars ("Natural Language Processing")), Pat.ws],
   [Pat.lit (chars ("Computer Vision")), Pat.ws],
   [Pat.lit (chars ("Clustering")), Pat.ws],
   [Pat.lit (chars ("3510F25")), Pat.ws],
   [Pat.lit (chars ("3520F25")), Pat.ws]]

/-- The `normalize_name` of `utils/fix_grades.py`: drop the lab prefix, delete
each course-title literal, replace `\s*\d{7}\s*` by a single space, delete
parenthesized substrings `\([^)]*\)`, then collapse whitespace and trim. -/
def normalize_name (name : Str) : Str :=
  let s1 := dropLabTitle name
  let s2 := titlePats.foldl (fun s pats => gsub pats [] s) s1
  let s3 := gsub [Pat.ws, Pat.digitsN 7, Pat.ws] [' '] s2
  let s4 := gsub [Pat.lit ['('], Pat.tillChar (')'), Pat.lit [')']] [] s3
  trimPy (joinW (words s4))

/-- One gradebook roster entry as built by `load_gradebook_names`
(lines 24-33): the display name with its precomputed comparison forms. -/
structure GBEntry where
  full : Str
  first : Str
  last : Str
  firstLower : Str
  lastLower : Str
  fullLower : Str
  fullNospace : Str
  deriving DecidableEq

/-- Build a roster entry from already-stripped first and last names, exactly
as `load_gradebook_names` fills the dict. -/
def mkGBEntry (first last : Str) : GBEntry :=
  let full := trimPy (first ++ ' ' :: last)
  { full := full
    first := first
    last := last
    firstLower := lowerStr first
    lastLower := lowerStr last
    fullLower := lowerStr full
    fullNospace := lowerStr (removeSpaceChars full) }

/-- The manual-override table of `find_best_match` (lines 67-94); a value of
`none` is the Python `None` "skip this entry" marker. -/
def manual_mappings : List (Str × Option Str) :=
  [(chars ("inderjeetsingh"), some (chars ("Inderjeet Singh LNU"))),
   (chars ("christinem"), some (chars ("Christine Joyce Moraleja"))),
   (chars ("christine"), some (chars ("Christine Joyce Moraleja"))),
   (chars ("jaspinder"), some (chars ("Jaspinderjit Singh"))),
   (chars ("aquiles escarra"), some (chars ("Aquiles Jose Escarra Ruiz"))),
   (chars ("emem antia"), some (chars ("Emem Antia"))),
   (chars ("geetika"), some (chars ("Geetika LNU"))),
   (chars ("yungvir singh"), some (chars ("Yungvir Singh"))),
   (chars ("student"), none),
   (chars ("fateh brar singh"), some (chars ("Fateh Singh Brar"))),
   (chars ("fateh brar"), some (chars ("Fateh Singh Brar"))),
   (chars ("farhan mohammaed"), some (chars ("Farhan Ur Rahman Mohammed"))),
   (chars ("farhan mohammed 3090164"), some (chars ("Farhan Ur Rahman Mohammed"))),
   (chars ("farhan mohammed"), some (chars ("Farhan Ur Rahman Mohammed"))),
   (chars ("ollanagonzalez"), some (chars ("Ollana Jewel Gonzalez"))),
   (chars ("ollana gonzalez"), some (chars ("Ollana Jewel Gonzalez"))),
   (chars ("lab 05 random forest cmpt 3510 dharmnder"), some (chars ("Dharminder Singh"))),
   (chars ("cmpt3520 lab 1: linear and logistic regression"), none),
   (chars ("lab 01 linear and logistic regression"), none),
   (chars ("lab 03 soft margin svms and kernels"), none),
   (chars ("rakshti bhrdwaj lab 03 soft margin svms and kernels"), some (chars ("Rakshit Bhardwaj"))),
   (chars ("cmpt 3520 lab5 deep neural network[christinem]"), some (chars ("Christine Joyce Moraleja"))),
   (chars ("lab 5 neural networks using pytorch (yuvraj lal)"), some (chars ("Yuvraj Lal"))),
   (chars ("navroo kaur"), some (chars ("Navroop Kaur")))]

/-- The four manual-override lookups of lines 97-114, in source order: the
lowercased-and-stripped raw name, its no-space form, then the normalized name
lowercased and its no-space form. -/
def manualOverride (grades_name : Str) : Option (Option Str) :=
  let original_lower := trimPy (lowerStr grades_name)
  let original_nospace := removeSpaceChars original_lower
  match lookupA manual_mappings original_lower with
  | some v => some v
  | none =>
  match lookupA manual_mappings original_nospace with
  | some v => some v
  | none =>
  let normalized := normalize_name grades_name
  let normalized_lower := lowerStr normalized
  let normalized_nospace := lowerStr (removeSpaceChars normalized)
  match lookupA manual_mappings normalized_lower with
  | some v => some v
  | none => lookupA manual_mappings normalized_nospace

/-- The header/invalid names skipped at line 117. -/
def headerNames : List Str :=
  [chars ("student name"), chars ("student"), chars ("first last"), []]

/-- Exact-match rule (lines 121-123). -/
def exactRule (normalized_lower : Str) : List GBEntry → Option Str
  | [] => none
  | gb :: rest =>
    if normalized_lower = gb.fullLower then some gb.full else exactRule normalized_lower rest

/-- No-space-match rule (lines 126-128). -/
def nospaceRule (normalized_nospace : Str) : List GBEntry → Option Str
  | [] => none
  | gb :: rest =>
    if normalized_nospace = gb.fullNospace then some gb.full else nospaceRule normalized_nospace rest

/-- The common last-name initials of line 138. -/
def lastInitials : List Char := ['m', 'l', 'k', 'j', 's', 'b', 'n', 'a', 't', 'v', 'p', 'g', 'w']

/-- Python `rest[0] in 'mlkjsbnatvpgw'` guarded by `rest` being non-empty. -/
def restStartsCommon (rest : Str) : Bool :=
  match rest with
  | [] => false
  | c :: _ => decide (c ∈ lastInitials)

/-- First-name-only rule (lines 131-139): equality with the first name, or a
truncation whose remainder is empty or starts with a common last-name
initial. -/
def firstNameRule (normalized_lower : Str) : List GBEntry → Option Str
  | [] => none
  | gb :: rest =>
    if normalized_lower = gb.firstLower then some gb.full
    else if isPre gb.firstLower normalized_lower ∧ 3 ≤ gb.firstLower.length ∧
        (trimPy (normalized_lower.drop gb.firstLower.length) = [] ∨
         restStartsCommon (trimPy (normalized_lower.drop gb.firstLower.length)) = true) then
      some gb.full
    else firstNameRule normalized_lower rest

/-- Substring-containment rule (lines 142-146). -/
def containRule (normalized_lower : Str) : List GBEntry → Option Str
  | [] => none
  | gb :: rest =>
    if strIn gb.firstLower normalized_lower ∧ 4 ≤ gb.firstLower.length ∧
        gb.lastLower ≠ [] ∧ strIn gb.lastLower normalized_lower then some gb.full
    else containRule normalized_lower rest

/-- Concatenation rule (lines 150-157): `first+last` lowered, or the first
name alone with its spaces removed. -/
def concatRule (normalized_nospace : Str) : List GBEntry → Option Str
  | [] => none
  | gb :: rest =>
    if normalized_nospace = lowerStr (gb.first ++ gb.last) ∨
        normalized_nospace = lowerStr (removeSpaceChars gb.first) then some gb.full
    else concatRule normalized_nospace rest

/-- Prefix rule (lines 159-166): the gradebook first name (spaces removed) is
a prefix of the normalized master name, with no length requirement, or the
master name is a prefix of the first name, requiring length at least 5. -/
def prefixRule (normalized_nospace : Str) : List GBEntry → Option Str
  | [] => none
  | gb :: rest =>
    let first_nospace := lowerStr (removeSpaceChars gb.first)
    if first_nospace ≠ [] ∧ isPre first_nospace normalized_nospace then some gb.full
    else if first_nospace ≠ [] ∧ isPre normalized_nospace first_nospace ∧
        5 ≤ normalized_nospace.length then some gb.full
    else prefixRule normalized_nospace rest

/-- Truncation rule (lines 169-175). -/
def truncRule (normalized_lower : Str) : List GBEntry → Option Str
  | [] => none
  | gb :: rest =>
    if 4 ≤ normalized_lower.length ∧
        isPre (normalized_lower.take gb.firstLower.length) gb.firstLower ∧
        normalized_lower.drop gb.firstLower.length ≠ [] ∧
        isPre (normalized_lower.drop gb.firstLower.length) gb.lastLower then some gb.full
    else truncRule normalized_lower rest

/-- The `find_best_match` of `utils/fix_grades.py`: manual overrides first, a
header-name skip, then the heuristic rules in source order, each a single
pass over the roster. -/
def find_best_match (grades_name : Str) (gradebook_names : List GBEntry) : Option Str :=
  match manualOverride grades_name with
  | some v => v
  | none =>
  if hasCol headerNames (lowerStr grades_name) then none
  else
  let normalized := normalize_name grades_name
  let normalized_lower := lowerStr normalized
  let normalized_nospace := lowerStr (removeSpaceChars normalized)
  match exactRule normalized_lower gradebook_names with
  | some f => some f
  | none =>
  match nospaceRule normalized_nospace gradebook_names with
  | some f => some f
  | none =>
  match firstNameRule normalized_lower gradebook_names with
  | some f => some f
  | none =>
  match containRule normalized_lower gradebook_names with
  | some f => some f
  | none =>
  match concatRule normalized_nospace gradebook_names with
  | some f => some f
  | none =>
  match prefixRule normalized_nospace gradebook_names with
  | some f => some f
  | none => truncRule normalized_lower gradebook_names

end FixGrades

namespace ApplyGrades

open Marker

/-- The `normalize_name` of `utils/apply_grades.py`: collapse whitespace,
drop a leading `Lab NN` prefix, strip and lower-case.  The empty-input guard
of line 37 is absorbed: every step maps the empty string to itself. -/
def normalize_name (name : Str) : Str :=
  let s1 := joinW (words name)
  let s2 := FixGrades.dropLabTitle s1
  lowerStr (trimPy s2)

/-- One gradebook student as built by `get_gradebook_students` (lines 55-87):
the identifying fields plus the `total_mark`/`feedback` entries added later by
the matching loop (absent until then, hence optional). -/
structure StudentRec where
  email : Str
  name : Str
  nameNormalized : Str
  first : Str
  last : Str
  row : Row
  totalMark? : Option Str
  feedback? : Option Str
  deriving DecidableEq

/-- Python `'Email address' if 'Email address' in row else 'Email'`
(lines 57 and 235). -/
def emailColOf (row : Row) : Str :=
  if rowHas row (chars ("Email address")) then chars ("Email address") else chars ("Email")

/-- The `get_gradebook_students` of `utils/apply_grades.py`, on rows already
read: the keyed student dict and the email-format flag. -/
def get_gradebook_students (rows : List Row) (fieldnames : List Str) :
    List (Str × StudentRec) × Bool :=
  let has_email := hasCol fieldnames (chars ("Email address")) || hasCol fieldnames (chars ("Email"))
  let has_first_last := hasCol fieldnames (chars ("First name")) && hasCol fieldnames (chars ("Last name"))
  let students := rows.foldl
    (fun students row =>
      if has_email then
        let email := trimPy (rowGet row (emailColOf row))
        if email ≠ [] then
          let first := if has_first_last then trimPy (rowGet row (chars ("First name"))) else []
          let last := if has_first_last then trimPy (rowGet row (chars ("Last name"))) else []
          let full_name := if has_first_last then trimPy (first ++ ' ' :: last)
            else email.takeWhile (fun c => decide (c ≠ '@'))
          assocSet students email
            { email := email, name := full_name, nameNormalized := normalize_name full_name,
              first := first, last := last, row := row, totalMark? := none, feedback? := none }
        else students
      else if has_first_last then
        let first := trimPy (rowGet row (chars ("First name")))
        let last := trimPy (rowGet row (chars ("Last name")))
        let full_name := trimPy (first ++ ' ' :: last)
        if full_name ≠ [] then
          assocSet students full_name
            { email := [], name := full_name, nameNormalized := normalize_name full_name,
              first := first, last := last, row := row, totalMark? := none, feedback? := none }
        else students
      else students)
    []
  (students, has_email)

/-- One grades.csv record as loaded by `load_grades` (lines 97-111). -/
structure GradeInfo where
  name : Str
  totalMark : Str
  feedback : Str
  deriving DecidableEq

/-- The loop body conditions of `find_match` (lines 124-145), checked for one
student in source order. -/
def findMatchCond (normalized : Str) (st : StudentRec) : Prop :=
  normalized = st.nameNormalized ∨
  removeSpaceChars normalized = removeSpaceChars (normalize_name (st.first ++ st.last)) ∨
  (normalize_name st.first ≠ [] ∧ 4 ≤ (normalize_name st.first).length ∧
    (normalized = normalize_name st.first ∨ isPre (normalize_name st.first) normalized)) ∨
  (2 ≤ (words normalized).length ∧ 2 ≤ (words st.nameNormalized).length ∧
    (words normalized).head? = (words st.nameNormalized).head? ∧
    (words normalized).getLast? = (words st.nameNormalized).getLast?)

instance (normalized : Str) (st : StudentRec) : Decidable (findMatchCond normalized st) := by
  unfold findMatchCond; infer_instance

/-- The student loop of `find_match`: first key whose conditions hold. -/
def findMatchLoop (normalized : Str) : List (Str × StudentRec) → Option Str
  | [] => none
  | (key, st) :: rest =>
    if findMatchCond normalized st then some key else findMatchLoop normalized rest

/-- The `find_match` of `utils/apply_grades.py`. -/
def find_match (grades_name : Str) (gradebook_students : List (Str × StudentRec))
    (_has_email : Bool) : Option Str :=
  let normalized := normalize_name grades_name
  if normalized = [] ∨ normalized = chars ("student") ∨ normalized = chars ("student name") then
    none
  else findMatchLoop normalized gradebook_students

/-- The matching loop of `apply_grades` (lines 188-197): thread the students
dict while recording matches; returns the updated students, the match count,
the unmatched grades names, and the matched key set. -/
def matchLoop (grades : List (Str × GradeInfo)) (has_email : Bool)
    (students0 : List (Str × StudentRec)) :
    List (Str × StudentRec) × Nat × List Str × List Str :=
  grades.foldl
    (fun acc g =>
      let (students, matched, unmatched, matchedSet) := acc
      match find_match g.1 students has_email with
      | some key =>
        (assocModify (fun st => { st with totalMark? := some g.2.totalMark,
                                          feedback? := some g.2.feedback }) students key,
         matched + 1, unmatched,
         if hasCol matchedSet key then matchedSet else matchedSet ++ [key])
      | none => (students, matched, unmatched ++ [g.1], matchedSet))
    (students0, 0, [], [])

/-- Lines 222-226: append `Total Mark` and `Feedback Card` to the output
header when absent. -/
def newFieldnamesOf (fieldnames : List Str) : List Str :=
  let f1 := if hasCol fieldnames (chars ("Total Mark")) then fieldnames
    else fieldnames ++ [chars ("Total Mark")]
  if hasCol f1 (chars ("Feedback Card")) then f1 else f1 ++ [chars ("Feedback Card")]

/-- The row key recomputed during write-back (lines 234-240). -/
def keyOf (has_email : Bool) (row : Row) : Str :=
  if has_email then trimPy (rowGet row (emailColOf row))
  else trimPy (trimPy (rowGet row (chars ("First name"))) ++ ' ' ::
    trimPy (rowGet row (chars ("Last name"))))

/-- The write-back of one gradebook row (lines 232-249): a matched row
receives the stored mark and feedback, every other row has both columns set
to the empty string, and the row is then projected onto the output header. -/
def writeBackRow (newFieldnames : List Str) (students : List (Str × StudentRec))
    (matchedSet : List Str) (has_email : Bool) (row : Row) : Row :=
  let key := keyOf has_email row
  let row2 :=
    match lookupA students key with
    | some st =>
      if hasCol matchedSet key then
        rowSet (rowSet row (chars ("Total Mark")) (st.totalMark?.getD []))
          (chars ("Feedback Card")) (st.feedback?.getD [])
      else
        rowSet (rowSet row (chars ("Total Mark")) []) (chars ("Feedback Card")) []
    | none =>
      rowSet (rowSet row (chars ("Total Mark")) []) (chars ("Feedback Card")) []
  projectRow newFieldnames row2

/-- The full written output of one gradebook (the loop of lines 232-249). -/
def writeGradebook (rows : List Row) (fieldnames : List Str)
    (students : List (Str × StudentRec)) (matchedSet : List Str)
    (has_email : Bool) : List Row :=
  rows.map (writeBackRow (newFieldnamesOf fieldnames) students matchedSet has_email)

/-- The per-gradebook record appended to `results['gradebooks']`
(lines 253-258), together with the rows written to the `_filled` file. -/
structure GBResult where
  path : Str
  matched : Nat
  unmatchedGrades : List Str
  unmatchedGradebook : List Str
  written : List Row
  deriving DecidableEq

/-- Processing of one existing gradebook inside `apply_grades`
(lines 177-258). -/
def processGradebook (path : Str) (fieldnames : List Str) (rows : List Row)
    (grades : List (Str × GradeInfo)) : GBResult :=
  let gb := get_gradebook_students rows fieldnames
  let ml := matchLoop grades gb.2 gb.1
  { path := path
    matched := ml.2.1
    unmatchedGrades := ml.2.2.1
    unmatchedGradebook :=
      (ml.1.filter (fun p => hasCol ml.2.2.2 p.1 = false)).map (fun p => p.2.name)
    written := writeGradebook rows fieldnames ml.1 ml.2.2.2 gb.2 }

/-- The gradebook loop of `apply_grades` (lines 172-258): a listed gradebook
whose file is missing is reported (first component) and skipped with
`continue`, and every existing gradebook is processed; the grades table has
already been loaded (lines 150-161). -/
def apply_grades (fs : Str → Option (List Str × List Row))
    (grades : List (Str × GradeInfo)) : List Str → List Str × List GBResult
  | [] => ([], [])
  | p :: rest =>
    let next := apply_grades fs grades rest
    match fs p with
    | none => (p :: next.1, next.2)
    | some (fieldnames, rows) => (next.1, processGradebook p fieldnames rows grades :: next.2)

end ApplyGrades

namespace Examples

open Marker

/-- Concrete merge configuration used by witnesses: one column to add, one
mapped student. -/
def cfgW : ApplyTranslation.GradebookConfig :=
  { path := chars ("gb.csv")
    sectionName := chars ("S1")
    encoding? := none
    columnsToAdd := [(chars ("Total Mark"), 1)]
    studentMappings := [(chars ("Jane Doe"), chars ("Jane Doe"))]
    studentColumn := chars ("Student Name") }

/-- Concrete grades table used by witnesses. -/
def gradesW : List (Str × Row) :=
  [(chars ("Jane Doe"),
    [(chars ("Student Name"), chars ("Jane Doe")), (chars ("Total Mark"), chars ("85"))])]

/-- Concrete gradebook header used by witnesses. -/
def fnsW : List Str := [chars ("First name"), chars ("Last name")]

/-- Concrete gradebook rows used by witnesses: one matched student, one
unmatched. -/
def rowsW : List Row :=
  [[(chars ("First name"), chars ("Jane")), (chars ("Last name"), chars ("Doe"))],
   [(chars ("First name"), chars ("Bob")), (chars ("Last name"), chars ("Roe"))]]

end Examples
namespace Marker

theorem char_eq_iff_toNat {c d : Char} : c = d ↔ c.toNat = d.toNat := by
  constructor
  · intro h; rw [h]
  · intro h
    apply Char.eq_of_val_eq
    exact UInt32.toNat.inj h

theorem toNat_ofNat_lt {n : Nat} (h : n < 55296) : (Char.ofNat n).toNat = n := by
  have hv : n.isValidChar := Or.inl h
  simp only [Char.ofNat, hv, dif_pos, Char.ofNatAux, Char.toNat]
  rfl

theorem toNat_lowerChar (c : Char) :
    (lowerChar c).toNat = if 65 ≤ c.toNat ∧ c.toNat ≤ 90 then c.toNat + 32 else c.toNat := by
  unfold lowerChar
  split
  · next h => exact toNat_ofNat_lt (by omega)
  · rfl

theorem lowerChar_lowerChar (c : Char) : lowerChar (lowerChar c) = lowerChar c := by
  rw [char_eq_iff_toNat, toNat_lowerChar, toNat_lowerChar]
  by_cases h : 65 ≤ c.toNat ∧ c.toNat ≤ 90
  · rw [if_pos h, if_neg (by omega : ¬(65 ≤ c.toNat + 32 ∧ c.toNat + 32 ≤ 90))]
  · rw [if_neg h, if_neg h]

theorem isPySpace_toNat (c : Char) :
    isPySpace c = true ↔ (c.toNat = 32 ∨ c.toNat = 9 ∨ c.toNat = 10 ∨ c.toNat = 11 ∨
      c.toNat = 12 ∨ c.toNat = 13) := by
  simp only [isPySpace, decide_eq_true_eq, char_eq_iff_toNat]
  exact Iff.rfl

theorem isPySpace_lowerChar (c : Char) : isPySpace (lowerChar c) = isPySpace c := by
  by_cases h : 65 ≤ c.toNat ∧ c.toNat ≤ 90
  · have h1 : isPySpace c = false := by
      cases hb : isPySpace c
      · rfl
      · exact absurd ((isPySpace_toNat c).mp hb) (by omega)
    have h2 : isPySpace (lowerChar c) = false := by
      cases hb : isPySpace (lowerChar c)
      · rfl
      · have hx := (isPySpace_toNat _).mp hb
        rw [toNat_lowerChar, if_pos h] at hx
        exact absurd hx (by omega)
    rw [h1, h2]
  · have hc : lowerChar c = c := by rw [char_eq_iff_toNat, toNat_lowerChar, if_neg h]
    rw [hc]

theorem lowerChar_eq_special {c d : Char}
    (hd : d.toNat < 65 ∨ (90 < d.toNat ∧ d.toNat < 97) ∨ 122 < d.toNat) :
    lowerChar c = d ↔ c = d := by
  rw [char_eq_iff_toNat, char_eq_iff_toNat, toNat_lowerChar]
  split
  · next h => omega
  · exact Iff.rfl

end Marker

namespace Marker

theorem lookupA_assocSet_self {β : Type} (l : List (Str × β)) (k : Str) (v : β) :
    lookupA (assocSet l k v) k = some v := by
  induction l with
  | nil => simp [assocSet, lookupA]
  | cons p rest ih =>
    obtain ⟨k2, w⟩ := p
    by_cases h : k2 = k
    · simp [assocSet, h, lookupA]
    · simp [assocSet, h, lookupA, ih]

theorem lookupA_assocSet_ne {β : Type} (l : List (Str × β)) (k k2 : Str) (v : β)
    (h : k ≠ k2) : lookupA (assocSet l k v) k2 = lookupA l k2 := by
  induction l with
  | nil => simp [assocSet, lookupA, h]
  | cons p rest ih =>
    obtain ⟨k3, w⟩ := p
    by_cases h3 : k3 = k
    · subst h3
      simp [assocSet, lookupA, h]
    · simp only [assocSet, if_neg h3, lookupA]
      by_cases h4 : k3 = k2
      · simp [h4]
      · simp [h4, ih]

theorem rowGet_rowSet_self (r : Row) (k v : Str) : rowGet (rowSet r k v) k = v := by
  simp [rowGet, rowSet, lookupA_assocSet_self]

theorem rowGet_rowSet_ne (r : Row) (k k2 v : Str) (h : k ≠ k2) :
    rowGet (rowSet r k v) k2 = rowGet r k2 := by
  simp [rowGet, rowSet, lookupA_assocSet_ne _ _ _ _ h]

theorem hasCol_iff_mem (l : List Str) (k : Str) : hasCol l k = true ↔ k ∈ l := by
  induction l with
  | nil => simp [hasCol]
  | cons c cs ih =>
    by_cases h : c = k
    · simp [hasCol, h]
    · simp [hasCol, h, ih]
      intro hk
      exact absurd hk.symm h

theorem lookupA_eq_none {β : Type} (l : List (Str × β)) (k : Str)
    (h : ∀ p ∈ l, p.1 ≠ k) : lookupA l k = none := by
  induction l with
  | nil => rfl
  | cons p rest ih =>
    obtain ⟨k2, w⟩ := p
    have h2 : k2 ≠ k := h (k2, w) (by simp)
    simp [lookupA, h2]
    exact ih (fun q hq => h q (by simp [hq]))

theorem rowGet_projectRow (fns : List Str) (r : Row) (c : Str) (h : c ∈ fns) :
    rowGet (projectRow fns r) c = rowGet r c := by
  induction fns with
  | nil => cases h
  | cons f rest ih =>
    by_cases hf : f = c
    · simp [projectRow, rowGet, lookupA, hf]
    · have : c ∈ rest := by
        cases h with
        | head => exact absurd rfl hf
        | tail _ h2 => exact h2
      simp only [projectRow, List.map_cons, rowGet, lookupA, hf, if_false]
      exact ih this

theorem keys_projectRow (fns : List Str) (r : Row) :
    (projectRow fns r).map (fun p => p.1) = fns := by
  induction fns with
  | nil => rfl
  | cons f rest ih => simpa [projectRow] using ih

end Marker

namespace Marker

theorem words_single (c : Char) : words [c] = if isPySpace c then [] else [[c]] := rfl

theorem words_cons_cons (c d : Char) (cs2 : Str) :
    words (c :: d :: cs2) =
      if isPySpace c then words (d :: cs2)
      else if isPySpace d then [c] :: words (d :: cs2)
      else match words (d :: cs2) with
        | [] => [[c]]
        | t :: rest => (c :: t) :: rest := rfl

theorem words_sound (l : Str) (t : Str) (ht : t ∈ words l) :
    t ≠ [] ∧ (∀ c ∈ t, isPySpace c = false) ∧ (∀ c ∈ t, c ∈ l) := by
  induction l generalizing t with
  | nil => simp [words] at ht
  | cons c cs ih =>
    cases cs with
    | nil =>
      rw [words_single] at ht
      by_cases hsp : isPySpace c
      · rw [if_pos hsp] at ht
        simp at ht
      · rw [if_neg hsp] at ht
        simp only [List.mem_singleton] at ht
        subst ht
        refine ⟨by simp, ?_, by simp⟩
        intro x hx
        simp only [List.mem_singleton] at hx
        subst hx
        simpa using hsp
    | cons d cs2 =>
      rw [words_cons_cons] at ht
      by_cases hsp : isPySpace c
      · rw [if_pos hsp] at ht
        obtain ⟨h1, h2, h3⟩ := ih t ht
        exact ⟨h1, h2, fun x hx => List.mem_cons_of_mem _ (h3 x hx)⟩
      · rw [if_neg hsp] at ht
        by_cases hd : isPySpace d
        · rw [if_pos hd] at ht
          rcases List.mem_cons.mp ht with h | h
          · subst h
            refine ⟨by simp, ?_, by simp⟩
            intro x hx
            simp only [List.mem_singleton] at hx
            subst hx
            simpa using hsp
          · obtain ⟨h1, h2, h3⟩ := ih t h
            exact ⟨h1, h2, fun x hx => List.mem_cons_of_mem _ (h3 x hx)⟩
        · rw [if_neg hd] at ht
          cases hws : words (d :: cs2) with
          | nil =>
            rw [hws] at ht
            simp only [List.mem_singleton] at ht
            subst ht
            refine ⟨by simp, ?_, by simp⟩
            intro x hx
            simp only [List.mem_singleton] at hx
            subst hx
            simpa using hsp
          | cons t1 rest =>
            rw [hws] at ht
            rcases List.mem_cons.mp ht with h | h
            · subst h
              have ht1 := ih t1 (by rw [hws]; exact List.mem_cons_self _ _)
              obtain ⟨h1, h2, h3⟩ := ht1
              refine ⟨by simp, ?_, ?_⟩
              · intro x hx
                rcases List.mem_cons.mp hx with hx | hx
                · subst hx; simpa using hsp
                · exact h2 x hx
              · intro x hx
                rcases List.mem_cons.mp hx with hx | hx
                · subst hx; exact List.mem_cons_self _ _
                · exact List.mem_cons_of_mem _ (h3 x hx)
            · obtain ⟨h1, h2, h3⟩ := ih t (by rw [hws]; exact List.mem_cons_of_mem _ h)
              exact ⟨h1, h2, fun x hx => List.mem_cons_of_mem _ (h3 x hx)⟩

theorem words_token (t : Str) (h1 : t ≠ []) (h2 : ∀ c ∈ t, isPySpace c = false) :
    words t = [t] := by
  induction t with
  | nil => exact absurd rfl h1
  | cons c t2 ih =>
    have hc : isPySpace c = false := h2 c (List.mem_cons_self _ _)
    cases t2 with
    | nil => rw [words_single, if_neg (by simp [hc])]
    | cons d t3 =>
      have hd : isPySpace d = false := h2 d (by simp)
      rw [words_cons_cons, if_neg (by simp [hc]), if_neg (by simp [hd])]
      rw [ih (by simp) (fun x hx => h2 x (List.mem_cons_of_mem _ hx))]

theorem words_append_token (t u : Str) (h1 : t ≠ []) (h2 : ∀ c ∈ t, isPySpace c = false) :
    words (t ++ ' ' :: u) = t :: words u := by
  induction t with
  | nil => exact absurd rfl h1
  | cons c t2 ih =>
    have hc : isPySpace c = false := h2 c (List.mem_cons_self _ _)
    cases t2 with
    | nil =>
      simp only [List.cons_append, List.nil_append]
      rw [words_cons_cons, if_neg (by simp [hc]), if_pos (by decide)]
      have : words (' ' :: u) = words u := by
        cases u with
        | nil => rfl
        | cons e u2 => rw [words_cons_cons, if_pos (by decide)]
      rw [this]
    | cons d t3 =>
      have hd : isPySpace d = false := h2 d (by simp)
      simp only [List.cons_append]
      rw [words_cons_cons, if_neg (by simp [hc]), if_neg (by simp [hd])]
      have ihx := ih (by simp) (fun x hx => h2 x (List.mem_cons_of_mem _ hx))
      simp only [List.cons_append] at ihx
      rw [ihx]

theorem words_joinW (ts : List Str)
    (h : ∀ t ∈ ts, t ≠ [] ∧ ∀ c ∈ t, isPySpace c = false) :
    words (joinW ts) = ts := by
  induction ts with
  | nil => rfl
  | cons t ts2 ih =>
    cases ts2 with
    | nil =>
      obtain ⟨h1, h2⟩ := h t (by simp)
      exact words_token t h1 h2
    | cons u ts3 =>
      obtain ⟨h1, h2⟩ := h t (by simp)
      show words (t ++ ' ' :: joinW (u :: ts3)) = _
      rw [words_append_token t _ h1 h2]
      rw [ih (fun x hx => h x (List.mem_cons_of_mem _ hx))]

theorem lowerChar_space : lowerChar ' ' = ' ' := by decide

theorem joinW_map_lower (ts : List Str) : lowerStr (joinW ts) = joinW (ts.map lowerStr) := by
  induction ts with
  | nil => rfl
  | cons t ts2 ih =>
    cases ts2 with
    | nil => rfl
    | cons u ts3 =>
      show lowerStr (t ++ ' ' :: joinW (u :: ts3)) = lowerStr t ++ ' ' :: joinW ((u :: ts3).map lowerStr)
      rw [← ih]
      simp [lowerStr, lowerChar_space]

theorem mem_joinW (ts : List Str) (c : Char) (h : c ∈ joinW ts) :
    c = ' ' ∨ ∃ t ∈ ts, c ∈ t := by
  induction ts with
  | nil => simp [joinW] at h
  | cons t ts2 ih =>
    cases ts2 with
    | nil => exact Or.inr ⟨t, by simp, h⟩
    | cons u ts3 =>
      have h2 : c ∈ t ++ ' ' :: joinW (u :: ts3) := h
      rcases List.mem_append.mp h2 with h3 | h3
      · exact Or.inr ⟨t, by simp, h3⟩
      · rcases List.mem_cons.mp h3 with h4 | h4
        · exact Or.inl h4
        · rcases ih h4 with h5 | ⟨t2, h6, h7⟩
          · exact Or.inl h5
          · exact Or.inr ⟨t2, List.mem_cons_of_mem _ h6, h7⟩

theorem lowerStr_lowerStr (s : Str) : lowerStr (lowerStr s) = lowerStr s := by
  simp only [lowerStr, List.map_map]
  apply List.map_congr_left
  intro c _
  exact lowerChar_lowerChar c

end Marker

namespace Marker

theorem dropSpaces_eq_self (l : Str) (h : ∀ c, l.head? = some c → isPySpace c = false) :
    dropSpaces l = l := by
  cases l with
  | nil => rfl
  | cons c cs =>
    have := h c rfl
    simp [dropSpaces, this]

theorem trimPy_eq_self (l : Str)
    (h1 : ∀ c, l.head? = some c → isPySpace c = false)
    (h2 : ∀ c, l.getLast? = some c → isPySpace c = false) :
    trimPy l = l := by
  unfold trimPy
  rw [dropSpaces_eq_self l h1]
  rw [dropSpaces_eq_self l.reverse (by
    intro c hc
    rw [List.head?_reverse] at hc
    exact h2 c hc)]
  exact List.reverse_reverse l

theorem joinW_head? (t : Str) (ts : List Str) (ht : t ≠ []) :
    (joinW (t :: ts)).head? = t.head? := by
  cases ts with
  | nil => rfl
  | cons u ts2 =>
    show (t ++ ' ' :: joinW (u :: ts2)).head? = t.head?
    cases t with
    | nil => exact absurd rfl ht
    | cons c t2 => rfl

theorem joinW_ne_nil (t : Str) (ts : List Str) (ht : t ≠ []) :
    joinW (t :: ts) ≠ [] := by
  intro h
  have := joinW_head? t ts ht
  rw [h] at this
  cases t with
  | nil => exact absurd rfl ht
  | cons c t2 => simp at this

theorem joinW_getLast? (ts : List Str) (h : ∀ t ∈ ts, t ≠ []) (t0 : Str) (ht0 : t0 ≠ []) :
    ∃ t ∈ t0 :: ts, (joinW (t0 :: ts)).getLast? = t.getLast? := by
  induction ts generalizing t0 with
  | nil => exact ⟨t0, by simp, rfl⟩
  | cons u ts2 ih =>
    obtain ⟨t, htm, hte⟩ := ih (fun x hx => h x (List.mem_cons_of_mem _ hx)) u (h u (by simp))
    refine ⟨t, List.mem_cons_of_mem _ htm, ?_⟩
    show (t0 ++ ' ' :: joinW (u :: ts2)).getLast? = _
    rw [List.getLast?_append_of_ne_nil _ (by simp)]
    rw [List.getLast?_cons]
    have hne := joinW_ne_nil u ts2 (h u (by simp))
    rw [← hte]
    cases hj : joinW (u :: ts2) with
    | nil => exact absurd hj hne
    | cons a l2 => simp [List.getLast?_cons]

theorem trimPy_joinW_words (l : Str) : trimPy (joinW (words l)) = joinW (words l) := by
  cases hw : words l with
  | nil => rfl
  | cons t ts =>
    have hts : ∀ x ∈ t :: ts, x ≠ [] ∧ (∀ c ∈ x, isPySpace c = false) := by
      intro x hx
      have := words_sound l x (by rw [hw]; exact hx)
      exact ⟨this.1, this.2.1⟩
    apply trimPy_eq_self
    · intro c hc
      rw [joinW_head? t ts (hts t (by simp)).1] at hc
      apply (hts t (by simp)).2
      exact List.mem_of_mem_head? hc
    · intro c hc
      obtain ⟨t2, ht2m, ht2e⟩ := joinW_getLast? ts (fun x hx => (hts x (List.mem_cons_of_mem _ hx)).1) t (hts t (by simp)).1
      rw [ht2e] at hc
      apply (hts t2 ht2m).2
      exact List.mem_of_mem_getLast? hc

end Marker

namespace Marker

theorem stripBom_eq_self (l : Str) (h : '\uFEFF' ∉ l) : stripBom l = l := by
  cases l with
  | nil => rfl
  | cons c cs =>
    have hc : c ≠ '\uFEFF' := fun he => h (he ▸ List.mem_cons_self _ _)
    simp [stripBom, hc]

theorem replaceComma_no_comma (l : Str) : ',' ∉ replaceComma l := by
  intro h
  simp only [replaceComma, List.mem_map] at h
  obtain ⟨d, _, hd⟩ := h
  by_cases hd2 : d = ','
  · rw [if_pos hd2] at hd
    exact absurd hd (by decide)
  · rw [if_neg hd2] at hd
    exact hd2 hd

theorem mem_replaceComma_bom (l : Str) (h : '\uFEFF' ∈ replaceComma l) : '\uFEFF' ∈ l := by
  simp only [replaceComma, List.mem_map] at h
  obtain ⟨d, hdm, hd⟩ := h
  by_cases hd2 : d = ','
  · rw [if_pos hd2] at hd
    exact absurd hd (by decide)
  · rw [if_neg hd2] at hd
    exact hd ▸ hdm

theorem replaceComma_eq_self (l : Str) (h : ',' ∉ l) : replaceComma l = l := by
  simp only [replaceComma]
  apply List.map_congr_left ?_ |>.trans (List.map_id l)
  intro c hc
  have : c ≠ ',' := fun he => h (he ▸ hc)
  simp [this]

theorem mem_lowerStr_special (s : Str) (d : Char)
    (hd : d.toNat < 65 ∨ (90 < d.toNat ∧ d.toNat < 97) ∨ 122 < d.toNat)
    (h : d ∈ lowerStr s) : d ∈ s := by
  simp only [lowerStr, List.mem_map] at h
  obtain ⟨c, hcm, hc⟩ := h
  have : c = d := (lowerChar_eq_special hd).mp hc
  exact this ▸ hcm

end Marker

namespace ApplyTranslation

open Marker

theorem normalize_name_unfolded (n : Str) :
    normalize_name n = lowerStr (joinW (words (replaceComma (stripBom n)))) := rfl

theorem normalize_name_no_comma (n : Str) : ',' ∉ normalize_name n := by
  rw [normalize_name_unfolded]
  intro h
  have h2 : (',' : Char) ∈ joinW (words (replaceComma (stripBom n))) :=
    mem_lowerStr_special _ _ (by decide) h
  rcases mem_joinW _ _ h2 with h3 | ⟨t, htm, h3⟩
  · exact absurd h3 (by decide)
  · have := (words_sound _ t htm).2.2 _ h3
    exact replaceComma_no_comma _ this

theorem normalize_name_no_bom (n : Str) (h : '\uFEFF' ∉ stripBom n) :
    '\uFEFF' ∉ normalize_name n := by
  rw [normalize_name_unfolded]
  intro hb
  have h2 : ('\uFEFF' : Char) ∈ joinW (words (replaceComma (stripBom n))) :=
    mem_lowerStr_special _ _ (by decide) hb
  rcases mem_joinW _ _ h2 with h3 | ⟨t, htm, h3⟩
  · exact absurd h3 (by decide)
  · have := (words_sound _ t htm).2.2 _ h3
    exact h (mem_replaceComma_bom _ this)

theorem words_normalize_name (n : Str) :
    words (normalize_name n) = (words (replaceComma (stripBom n))).map lowerStr := by
  rw [normalize_name_unfolded, joinW_map_lower]
  apply words_joinW
  intro x hx
  simp only [List.mem_map] at hx
  obtain ⟨t, htm, ht⟩ := hx
  have hs := words_sound _ t htm
  constructor
  · rw [← ht]
    intro he
    exact hs.1 (by simpa [lowerStr] using he)
  · intro c hc
    rw [← ht] at hc
    simp only [lowerStr, List.mem_map] at hc
    obtain ⟨d, hdm, hd⟩ := hc
    rw [← hd, isPySpace_lowerChar]
    exact hs.2.1 d hdm

end ApplyTranslation

namespace ApplyTranslation

open Marker

theorem updatedFieldnames_suffix (nc : List Str) :
    ∀ fns : List Str, ∃ extra, updatedFieldnamesOf fns nc = fns ++ extra := by
  induction nc with
  | nil => intro fns; exact ⟨[], by simp [updatedFieldnamesOf]⟩
  | cons col nc2 ih =>
    intro fns
    show ∃ extra, List.foldl _ (if hasCol fns col then fns else fns ++ [col]) nc2 = fns ++ extra
    by_cases h : hasCol fns col
    · rw [if_pos h]
      exact ih fns
    · rw [if_neg h]
      obtain ⟨extra, he⟩ := ih (fns ++ [col])
      exact ⟨[col] ++ extra, by rw [← List.append_assoc]; exact he⟩

theorem mem_updatedFieldnames_left (fns nc : List Str) (c : Str) (h : c ∈ fns) :
    c ∈ updatedFieldnamesOf fns nc := by
  obtain ⟨extra, he⟩ := updatedFieldnames_suffix nc fns
  rw [he]
  exact List.mem_append_left _ h

theorem mem_foldl_appendStep (l : List Str) :
    ∀ (acc : List Str) (c : Str), c ∈ acc →
      c ∈ l.foldl (fun fns col => if hasCol fns col then fns else fns ++ [col]) acc := by
  induction l with
  | nil => intro acc c h; exact h
  | cons col l2 ih =>
    intro acc c h
    show c ∈ List.foldl _ (if hasCol acc col then acc else acc ++ [col]) l2
    by_cases h2 : hasCol acc col
    · rw [if_pos h2]; exact ih acc c h
    · rw [if_neg h2]; exact ih _ c (List.mem_append_left _ h)

theorem mem_updatedFieldnames_right (nc : List Str) :
    ∀ (fns : List Str) (c : Str), c ∈ nc → c ∈ updatedFieldnamesOf fns nc := by
  induction nc with
  | nil => intro fns c h; cases h
  | cons col nc2 ih =>
    intro fns c h
    show c ∈ List.foldl _ (if hasCol fns col then fns else fns ++ [col]) nc2
    rcases List.mem_cons.mp h with h2 | h2
    · subst h2
      by_cases h3 : hasCol fns c
      · rw [if_pos h3]
        exact mem_foldl_appendStep nc2 fns c ((hasCol_iff_mem fns c).mp h3)
      · rw [if_neg h3]
        exact mem_foldl_appendStep nc2 _ c (List.mem_append_right _ (by simp))
    · by_cases h3 : hasCol fns col
      · rw [if_pos h3]; exact ih fns c h2
      · rw [if_neg h3]; exact ih _ c h2

theorem rowGet_foldl_activity (gd : Row) (l : List Str) :
    ∀ (r : Row) (c : Str), (∀ x ∈ l, x ≠ c) →
      rowGet (l.foldl
        (fun r col =>
          if isPre (chars ("Activity ")) col ∧ rowHas gd col then
            rowSet r col (rowGet gd col)
          else r) r) c = rowGet r c := by
  induction l with
  | nil => intro r c _; rfl
  | cons col l2 ih =>
    intro r c h
    show rowGet (List.foldl _ (if isPre (chars ("Activity ")) col ∧ rowHas gd col then
      rowSet r col (rowGet gd col) else r) l2) c = rowGet r c
    have hcol : col ≠ c := h col (by simp)
    by_cases h2 : isPre (chars ("Activity ")) col ∧ rowHas gd col
    · rw [if_pos h2]
      rw [ih _ c (fun x hx => h x (List.mem_cons_of_mem _ hx))]
      exact rowGet_rowSet_ne _ _ _ _ hcol
    · rw [if_neg h2]
      exact ih _ c (fun x hx => h x (List.mem_cons_of_mem _ hx))

theorem rowGet_updateRowWithGrades (nc : List Str) (gd row : Row) (c : Str) (h : c ∉ nc) :
    rowGet (updateRowWithGrades nc gd row) c = rowGet row c := by
  unfold updateRowWithGrades
  rw [rowGet_foldl_activity gd nc _ c (fun x hx he => h (he ▸ hx))]
  have htm : rowGet (if hasCol nc (chars ("Total Mark")) then
      rowSet row (chars ("Total Mark")) (rowGet gd (chars ("Total Mark"))) else row) c = rowGet row c := by
    by_cases h2 : hasCol nc (chars ("Total Mark"))
    · rw [if_pos h2]
      have : chars ("Total Mark") ≠ c := by
        intro he
        exact h (he ▸ (hasCol_iff_mem _ _).mp h2)
      exact rowGet_rowSet_ne _ _ _ _ this
    · rw [if_neg h2]
  by_cases h3 : hasCol nc (chars ("Feedback Card"))
  · rw [if_pos h3]
    have : chars ("Feedback Card") ≠ c := by
      intro he
      exact h (he ▸ (hasCol_iff_mem _ _).mp h3)
    rw [rowGet_rowSet_ne _ _ _ _ this]
    exact htm
  · rw [if_neg h3]
    exact htm

theorem processRow_snd_false (m : List (Str × Str)) (g : List (Str × Row))
    (sc : Str) (fns nc : List Str) (row : Row)
    (h : (processRow m g sc fns nc row).2 = false) :
    (processRow m g sc fns nc row).1 = row := by
  unfold processRow at h ⊢
  cases h1 : lookupA m (normalize_name (get_student_name_from_row row sc fns)) with
  | none => simp [h1]
  | some gn =>
    cases h2 : lookupA g gn with
    | none => simp [h1, h2]
    | some gd => simp [h1, h2] at h

theorem scanAlias_spec (nr : Row) (as2 : List Str)
    (h : ∃ c ∈ as2, rowHas nr c = true ∧ trimPy (rowGet nr c) ≠ []) :
    ∃ c ∈ as2, rowHas nr c = true ∧ trimPy (rowGet nr c) ≠ [] ∧
      scanAlias nr as2 = trimPy (rowGet nr c) := by
  induction as2 with
  | nil => simp at h
  | cons a rest ih =>
    by_cases ha : rowHas nr a = true ∧ trimPy (rowGet nr a) ≠ []
    · refine ⟨a, by simp, ha.1, ha.2, ?_⟩
      show (if rowHas nr a ∧ trimPy (rowGet nr a) ≠ [] then trimPy (rowGet nr a)
        else scanAlias nr rest) = _
      rw [if_pos (by exact ha)]
    · obtain ⟨c, hcm, hc⟩ := h
      rcases List.mem_cons.mp hcm with he | he
      · subst he
        exact absurd ⟨hc.1, hc.2⟩ ha
      · obtain ⟨c2, hc2m, hc2⟩ := ih ⟨c, he, hc.1, hc.2⟩
        refine ⟨c2, List.mem_cons_of_mem _ hc2m, hc2.1, hc2.2.1, ?_⟩
        show (if rowHas nr a ∧ trimPy (rowGet nr a) ≠ [] then trimPy (rowGet nr a)
          else scanAlias nr rest) = _
        rw [if_neg (by exact ha)]
        exact hc2.2.2

end ApplyTranslation

namespace ApplyGrades

open Marker

theorem tm_mem_newFieldnamesOf (fns : List Str) : chars ("Total Mark") ∈ newFieldnamesOf fns := by
  simp only [newFieldnamesOf]
  by_cases h1 : hasCol fns (chars ("Total Mark"))
  · rw [if_pos h1]
    by_cases h3 : hasCol fns (chars ("Feedback Card"))
    · rw [if_pos h3]; exact (hasCol_iff_mem _ _).mp h1
    · rw [if_neg h3]; exact List.mem_append_left _ ((hasCol_iff_mem _ _).mp h1)
  · rw [if_neg h1]
    by_cases h3 : hasCol (fns ++ [chars ("Total Mark")]) (chars ("Feedback Card"))
    · rw [if_pos h3]; exact List.mem_append_right _ (by simp)
    · rw [if_neg h3]; exact List.mem_append_left _ (List.mem_append_right _ (by simp))

theorem fc_mem_newFieldnamesOf (fns : List Str) : chars ("Feedback Card") ∈ newFieldnamesOf fns := by
  simp only [newFieldnamesOf]
  by_cases h1 : hasCol fns (chars ("Total Mark"))
  · rw [if_pos h1]
    by_cases h3 : hasCol fns (chars ("Feedback Card"))
    · rw [if_pos h3]; exact (hasCol_iff_mem _ _).mp h3
    · rw [if_neg h3]; exact List.mem_append_right _ (by simp)
  · rw [if_neg h1]
    by_cases h3 : hasCol (fns ++ [chars ("Total Mark")]) (chars ("Feedback Card"))
    · rw [if_pos h3]; exact (hasCol_iff_mem _ _).mp h3
    · rw [if_neg h3]; exact List.mem_append_right _ (by simp)

end ApplyGrades

open Marker

/-- Claim C2: for every master-grades name whose lowercased raw form, its
no-space form, or its normalized form (lowercased or no-space) is a key of the
manual override table, `find_best_match` returns that override's value before
any heuristic rule is consulted; in particular an override mapped to Python
`None` yields no match regardless of the roster. -/
theorem fg_override_precedence (grades_name : Str) (gradebook_names : List FixGrades.GBEntry)
    (v : Option Str) (h : FixGrades.manualOverride grades_name = some v) :
    FixGrades.find_best_match grades_name gradebook_names = v := by
  unfold FixGrades.find_best_match
  rw [h]

/-- Witness for C2 at a concrete input: the raw name `Christine` is an
override key mapped to `Christine Joyce Moraleja`, so the matcher returns the
override value even though the exact-match heuristic would have matched the
roster entry `Christine` (an entry with an empty last name). -/
theorem fg_override_precedence_witness :
    FixGrades.manualOverride (chars ("Christine")) =
      some (some (chars ("Christine Joyce Moraleja"))) ∧
    FixGrades.exactRule (lowerStr (FixGrades.normalize_name (chars ("Christine"))))
      [FixGrades.mkGBEntry (chars ("Christine")) []] = some (chars ("Christine")) ∧
    FixGrades.find_best_match (chars ("Christine"))
      [FixGrades.mkGBEntry (chars ("Christine")) []] =
      some (chars ("Christine Joyce Moraleja")) :=
  ⟨by decide, by decide, fg_override_precedence _ _ _ (by decide)⟩

/-- Claim C4, counterexample: the master name `Abc` has normalized no-space
form `abc` of length 3 < 5, yet the prefix rule matches it to the roster
entry with first name `Ab` (its no-space first name `ab` is a prefix of
`abc`), and `find_best_match` returns that match; every earlier heuristic
rule fails, so the match comes from the prefix rule. -/
theorem fg_prefix_rule_cex :
    (lowerStr (removeSpaceChars (FixGrades.normalize_name (chars ("Abc"))))).length < 5 ∧
    FixGrades.prefixRule (lowerStr (removeSpaceChars (FixGrades.normalize_name (chars ("Abc")))))
      [FixGrades.mkGBEntry (chars ("Ab")) (chars ("Q"))] = some (chars ("Ab Q")) ∧
    FixGrades.find_best_match (chars ("Abc"))
      [FixGrades.mkGBEntry (chars ("Ab")) (chars ("Q"))] = some (chars ("Ab Q")) ∧
    FixGrades.exactRule (lowerStr (FixGrades.normalize_name (chars ("Abc"))))
      [FixGrades.mkGBEntry (chars ("Ab")) (chars ("Q"))] = none ∧
    FixGrades.nospaceRule (lowerStr (removeSpaceChars (FixGrades.normalize_name (chars ("Abc")))))
      [FixGrades.mkGBEntry (chars ("Ab")) (chars ("Q"))] = none ∧
    FixGrades.firstNameRule (lowerStr (FixGrades.normalize_name (chars ("Abc"))))
      [FixGrades.mkGBEntry (chars ("Ab")) (chars ("Q"))] = none ∧
    FixGrades.containRule (lowerStr (FixGrades.normalize_name (chars ("Abc"))))
      [FixGrades.mkGBEntry (chars ("Ab")) (chars ("Q"))] = none ∧
    FixGrades.concatRule (lowerStr (removeSpaceChars (FixGrades.normalize_name (chars ("Abc")))))
      [FixGrades.mkGBEntry (chars ("Ab")) (chars ("Q"))] = none := by
  decide

/-- Claim C4, amended: in the prefix rule, the 5-character minimum applies
only to the direction in which the normalized master name is a prefix of the
gradebook first name; the opposite direction (gradebook first name a prefix
of the master name) matches with no length requirement.  Every accepted match
of the rule satisfies exactly this disjunction. -/
theorem fg_prefix_rule_amended (normalized_nospace : Str) (gradebook_names : List FixGrades.GBEntry)
    (f : Str) (h : FixGrades.prefixRule normalized_nospace gradebook_names = some f) :
    ∃ gb ∈ gradebook_names, f = gb.full ∧ lowerStr (removeSpaceChars gb.first) ≠ [] ∧
      (isPre (lowerStr (removeSpaceChars gb.first)) normalized_nospace = true ∨
       (isPre normalized_nospace (lowerStr (removeSpaceChars gb.first)) = true ∧
        5 ≤ normalized_nospace.length)) := by
  induction gradebook_names with
  | nil => simp [FixGrades.prefixRule] at h
  | cons gb rest ih =>
    simp only [FixGrades.prefixRule] at h
    split at h
    · next hc =>
      refine ⟨gb, by simp, ?_, hc.1, Or.inl hc.2⟩
      exact (Option.some.inj h).symm
    · split at h
      · next hc =>
        refine ⟨gb, by simp, ?_, hc.1, Or.inr ⟨hc.2.1, hc.2.2⟩⟩
        exact (Option.some.inj h).symm
      · obtain ⟨gb2, hm, he⟩ := ih h
        exact ⟨gb2, List.mem_cons_of_mem _ hm, he⟩

/-- Witness for C4's amended theorem at the concrete counterexample input. -/
theorem fg_prefix_rule_amended_witness :
    FixGrades.prefixRule (chars ("abc")) [FixGrades.mkGBEntry (chars ("Ab")) (chars ("Q"))] =
      some (chars ("Ab Q")) ∧
    ∃ gb ∈ [FixGrades.mkGBEntry (chars ("Ab")) (chars ("Q"))],
      chars ("Ab Q") = gb.full ∧ lowerStr (removeSpaceChars gb.first) ≠ [] ∧
      (isPre (lowerStr (removeSpaceChars gb.first)) (chars ("abc")) = true ∨
       (isPre (chars ("abc")) (lowerStr (removeSpaceChars gb.first)) = true ∧
        5 ≤ (chars ("abc")).length)) :=
  ⟨by decide, fg_prefix_rule_amended _ _ _ (by decide)⟩

/-- Claim C6, counterexample: a gradebook config without an `encoding` key
defaults to `utf-8` and is read with no fallback at all, so the read fails on
a file that only `latin-1` (a member of the fallback list) can decode; the
claimed retry through the encoding list happens only when the configured
encoding is the string `auto`. -/
theorem at_encoding_no_fallback_cex :
    ApplyTranslation.readSucceeds none (fun e => e == ("latin-1")) = false ∧
    ("latin-1") ∈ ApplyTranslation.encodings ∧
    (fun e => e == ("latin-1")) ("latin-1") = true := by
  refine ⟨by decide, by decide, by decide⟩

/-- Claim C6, amended: for every gradebook whose configured encoding is
`auto`, the read goes through the fixed list utf-8, latin-1, cp1252,
iso-8859-1 in that order — the encoding used is the first of the list that
decodes (with utf-8 as the default when none does) — and the read fails if
and only if every encoding in the list fails to decode the file. -/
theorem at_encoding_auto_fallback (decodes : String → Bool) (enc? : Option String)
    (h : enc? = some ("auto")) :
    (ApplyTranslation.readSucceeds enc? decodes = false ↔
      ∀ e ∈ ApplyTranslation.encodings, decodes e = false) ∧
    ApplyTranslation.readEncodingFor enc? decodes =
      ((ApplyTranslation.encodings.find? decodes).getD ("utf-8")) := by
  subst h
  cases hu : decodes ("utf-8") <;> cases hl : decodes ("latin-1") <;>
    cases hc : decodes ("cp1252") <;> cases hi : decodes ("iso-8859-1") <;>
    simp_all [ApplyTranslation.readSucceeds, ApplyTranslation.readEncodingFor,
      ApplyTranslation.detect_encoding, ApplyTranslation.detectEncodingLoop,
      ApplyTranslation.encodings, List.find?]

/-- Witness for C6's amended theorem: with only cp1252 able to decode, the
auto mode picks cp1252 and the read succeeds. -/
theorem at_encoding_auto_fallback_witness :
    (ApplyTranslation.readSucceeds (some ("auto")) (fun e => e == ("cp1252")) = false ↔
      ∀ e ∈ ApplyTranslation.encodings, (fun e => e == ("cp1252")) e = false) ∧
    ApplyTranslation.readEncodingFor (some ("auto")) (fun e => e == ("cp1252")) =
      ((ApplyTranslation.encodings.find? (fun e => e == ("cp1252"))).getD ("utf-8")) :=
  at_encoding_auto_fallback _ _ rfl

namespace ApplyGrades

open Marker

theorem processGradebook_path (p : Str) (fns : List Str) (rows : List Row)
    (grades : List (Str × GradeInfo)) : (processGradebook p fns rows grades).path = p := rfl

theorem apply_grades_warn (fs : Str → Option (List Str × List Row))
    (grades : List (Str × GradeInfo)) (paths : List Str) (p : Str)
    (hmem : p ∈ paths) (hmiss : fs p = none) :
    p ∈ (apply_grades fs grades paths).1 := by
  induction paths with
  | nil => cases hmem
  | cons q rest ih =>
    simp only [apply_grades]
    rcases List.mem_cons.mp hmem with he | he
    · subst he
      rw [hmiss]
      exact List.mem_cons_self _ _
    · cases hq : fs q with
      | none => exact List.mem_cons_of_mem _ (ih he)
      | some pr =>
        obtain ⟨fns, rows⟩ := pr
        exact ih he

theorem apply_grades_results_exist (fs : Str → Option (List Str × List Row))
    (grades : List (Str × GradeInfo)) (paths : List Str) (q : Str)
    (hmem : q ∈ paths) (hsome : (fs q).isSome = true) :
    ∃ r ∈ (apply_grades fs grades paths).2, r.path = q := by
  induction paths with
  | nil => cases hmem
  | cons q2 rest ih =>
    simp only [apply_grades]
    rcases List.mem_cons.mp hmem with he | he
    · subst he
      cases hq : fs q with
      | none => rw [hq] at hsome; simp at hsome
      | some pr =>
        obtain ⟨fns, rows⟩ := pr
        exact ⟨processGradebook q fns rows grades, List.mem_cons_self _ _, rfl⟩
    · cases hq : fs q2 with
      | none => exact ih he
      | some pr =>
        obtain ⟨fns, rows⟩ := pr
        obtain ⟨r, hrm, hre⟩ := ih he
        exact ⟨r, List.mem_cons_of_mem _ hrm, hre⟩

theorem apply_grades_results_sound (fs : Str → Option (List Str × List Row))
    (grades : List (Str × GradeInfo)) (paths : List Str) (r : GBResult)
    (hr : r ∈ (apply_grades fs grades paths).2) :
    ∃ q ∈ paths, r.path = q ∧ (fs q).isSome = true := by
  induction paths with
  | nil => simp [apply_grades] at hr
  | cons q2 rest ih =>
    simp only [apply_grades] at hr
    cases hq : fs q2 with
    | none =>
      rw [hq] at hr
      obtain ⟨q, hqm, hqe⟩ := ih hr
      exact ⟨q, List.mem_cons_of_mem _ hqm, hqe⟩
    | some pr =>
      obtain ⟨fns, rows⟩ := pr
      rw [hq] at hr
      rcases List.mem_cons.mp hr with he | he
      · subst he
        exact ⟨q2, List.mem_cons_self _ _, rfl, by rw [hq]; rfl⟩
      · obtain ⟨q, hqm, hqe⟩ := ih he
        exact ⟨q, List.mem_cons_of_mem _ hqm, hqe⟩

end ApplyGrades

/-- Claim C5, counterexample: in the translation applicator a missing FIRST
gradebook file aborts the whole run (the uncaught file error propagates out of
the gradebook loop), so the second gradebook — whose file exists — is never
processed; no result list is produced at all. -/
theorem at_missing_file_aborts_run_cex :
    ApplyTranslation.runGradebooks
      (fun p => if p = chars ("b.csv") then
        some ([chars ("First name"), chars ("Last name")], ([] : List Row)) else none)
      []
      [{ path := chars ("a.csv"), sectionName := chars ("A"), encoding? := none,
         columnsToAdd := [], studentMappings := [], studentColumn := chars ("Student Name") },
       { path := chars ("b.csv"), sectionName := chars ("B"), encoding? := none,
         columnsToAdd := [], studentMappings := [], studentColumn := chars ("Student Name") }] =
      Except.error (chars ("a.csv")) ∧
    ((fun p => if p = chars ("b.csv") then
        some ([chars ("First name"), chars ("Last name")], ([] : List Row)) else none)
      (chars ("b.csv"))).isSome = true := by
  exact ⟨rfl, by decide⟩

/-- Claim C5, amended: in `utils/apply_grades.py` a missing gradebook file is
reported as a warning and skipped, every listed gradebook whose file exists is
still processed (a result with its path is produced), and no result is
produced for the missing gradebook; in `src/apply_translation.py`, by
contrast, a missing gradebook file aborts the entire run. -/
theorem ag_missing_file_isolated (fs : Str → Option (List Str × List Marker.Row))
    (grades : List (Str × ApplyGrades.GradeInfo)) (paths : List Str) (p : Str)
    (hmem : p ∈ paths) (hmiss : fs p = none) :
    p ∈ (ApplyGrades.apply_grades fs grades paths).1 ∧
    (∀ q ∈ paths, (fs q).isSome = true →
      ∃ r ∈ (ApplyGrades.apply_grades fs grades paths).2, r.path = q) ∧
    (∀ r ∈ (ApplyGrades.apply_grades fs grades paths).2, r.path ≠ p) := by
  refine ⟨ApplyGrades.apply_grades_warn fs grades paths p hmem hmiss, ?_, ?_⟩
  · intro q hq hqs
    exact ApplyGrades.apply_grades_results_exist fs grades paths q hq hqs
  · intro r hr he
    obtain ⟨q, _, hre, hqs⟩ := ApplyGrades.apply_grades_results_sound fs grades paths r hr
    rw [he] at hre
    rw [hre] at hmiss
    rw [hmiss] at hqs
    simp at hqs

/-- Witness for C5's amended theorem on a concrete two-gradebook run with the
first file missing. -/
theorem ag_missing_file_isolated_witness :
    (chars ("a.csv") ∈ [chars ("a.csv"), chars ("b.csv")]) ∧
    ((fun p => if p = chars ("b.csv") then
        some (([] : List Str), ([] : List Marker.Row)) else none) (chars ("a.csv")) = none) ∧
    (chars ("a.csv") ∈ (ApplyGrades.apply_grades
      (fun p => if p = chars ("b.csv") then
        some (([] : List Str), ([] : List Marker.Row)) else none)
      [] [chars ("a.csv"), chars ("b.csv")]).1 ∧
    (∀ q ∈ [chars ("a.csv"), chars ("b.csv")],
      ((fun p => if p = chars ("b.csv") then
        some (([] : List Str), ([] : List Marker.Row)) else none) q).isSome = true →
      ∃ r ∈ (ApplyGrades.apply_grades
        (fun p => if p = chars ("b.csv") then
          some (([] : List Str), ([] : List Marker.Row)) else none)
        [] [chars ("a.csv"), chars ("b.csv")]).2, r.path = q) ∧
    (∀ r ∈ (ApplyGrades.apply_grades
      (fun p => if p = chars ("b.csv") then
        some (([] : List Str), ([] : List Marker.Row)) else none)
      [] [chars ("a.csv"), chars ("b.csv")]).2, r.path ≠ chars ("a.csv"))) :=
  ⟨by decide, by decide, ag_missing_file_isolated _ _ _ _ (by decide) (by decide)⟩

/-- Claim C8: in the `apply_grades` write-back, every gradebook row whose
recomputed key is not a matched student — the key is absent from the student
dict or from the matched set — has its `Total Mark` and `Feedback Card`
fields written as the empty string, regardless of what those columns held in
the input row. -/
theorem ag_writeback_erases_unmatched (rows : List Marker.Row) (fns : List Str)
    (students : List (Str × ApplyGrades.StudentRec)) (matchedSet : List Str)
    (has_email : Bool) (row : Marker.Row)
    (hun : lookupA students (ApplyGrades.keyOf has_email row) = none ∨
           hasCol matchedSet (ApplyGrades.keyOf has_email row) = false) :
    ApplyGrades.writeGradebook rows fns students matchedSet has_email =
      rows.map (ApplyGrades.writeBackRow (ApplyGrades.newFieldnamesOf fns) students matchedSet has_email) ∧
    rowGet (ApplyGrades.writeBackRow (ApplyGrades.newFieldnamesOf fns) students matchedSet has_email row)
      (chars ("Total Mark")) = [] ∧
    rowGet (ApplyGrades.writeBackRow (ApplyGrades.newFieldnamesOf fns) students matchedSet has_email row)
      (chars ("Feedback Card")) = [] := by
  have hblank : ∀ r2 : Marker.Row,
      r2 = rowSet (rowSet row (chars ("Total Mark")) []) (chars ("Feedback Card")) [] →
      rowGet (projectRow (ApplyGrades.newFieldnamesOf fns) r2) (chars ("Total Mark")) = [] ∧
      rowGet (projectRow (ApplyGrades.newFieldnamesOf fns) r2) (chars ("Feedback Card")) = [] := by
    intro r2 he
    subst he
    constructor
    · rw [rowGet_projectRow _ _ _ (ApplyGrades.tm_mem_newFieldnamesOf fns)]
      rw [rowGet_rowSet_ne _ _ _ _ (by decide)]
      exact rowGet_rowSet_self _ _ _
    · rw [rowGet_projectRow _ _ _ (ApplyGrades.fc_mem_newFieldnamesOf fns)]
      exact rowGet_rowSet_self _ _ _
  refine ⟨rfl, ?_⟩
  unfold ApplyGrades.writeBackRow
  cases hk : lookupA students (ApplyGrades.keyOf has_email row) with
  | none =>
    simp only [hk]
    exact hblank _ rfl
  | some st =>
    simp only [hk]
    rcases hun with hun | hun
    · rw [hk] at hun; cases hun
    · rw [if_neg (by rw [hun]; exact Bool.false_ne_true)]
      exact hblank _ rfl

/-- Witness for C8: a row whose input already carries `Total Mark` 99 and a
feedback value is written back with both fields blank when no student
matches. -/
theorem ag_writeback_erases_unmatched_witness :
    (lookupA ([] : List (Str × ApplyGrades.StudentRec))
      (ApplyGrades.keyOf false [(chars ("First name"), chars ("Ann")),
        (chars ("Last name"), chars ("Bee")),
        (chars ("Total Mark"), chars ("99")),
        (chars ("Feedback Card"), chars ("old"))]) = none ∨
     hasCol [] (ApplyGrades.keyOf false [(chars ("First name"), chars ("Ann")),
        (chars ("Last name"), chars ("Bee")),
        (chars ("Total Mark"), chars ("99")),
        (chars ("Feedback Card"), chars ("old"))]) = false) ∧
    rowGet [(chars ("First name"), chars ("Ann")), (chars ("Last name"), chars ("Bee")),
      (chars ("Total Mark"), chars ("99")), (chars ("Feedback Card"), chars ("old"))]
      (chars ("Total Mark")) = chars ("99") ∧
    rowGet (ApplyGrades.writeBackRow
      (ApplyGrades.newFieldnamesOf [chars ("First name"), chars ("Last name"),
        chars ("Total Mark"), chars ("Feedback Card")]) [] []
      false
      [(chars ("First name"), chars ("Ann")), (chars ("Last name"), chars ("Bee")),
       (chars ("Total Mark"), chars ("99")), (chars ("Feedback Card"), chars ("old"))])
      (chars ("Total Mark")) = [] ∧
    rowGet (ApplyGrades.writeBackRow
      (ApplyGrades.newFieldnamesOf [chars ("First name"), chars ("Last name"),
        chars ("Total Mark"), chars ("Feedback Card")]) [] []
      false
      [(chars ("First name"), chars ("Ann")), (chars ("Last name"), chars ("Bee")),
       (chars ("Total Mark"), chars ("99")), (chars ("Feedback Card"), chars ("old"))])
      (chars ("Feedback Card")) = [] := by
  refine ⟨by decide, by decide, ?_, ?_⟩
  · exact (ag_writeback_erases_unmatched [] _ [] [] false _ (by decide)).2.1
  · exact (ag_writeback_erases_unmatched [] _ [] [] false _ (by decide)).2.2

/-- Claim C9: a student-mapping entry whose `grades_name` is absent from the
loaded grades table produces no update and no error: the row passes through
unchanged (`processRow` returns it with the applied flag false, so it is not
counted in `updates_applied`), its pre-existing columns are written verbatim,
and the new columns are written blank. -/
theorem at_dangling_mapping_noop (m : List (Str × Str)) (g : List (Str × Marker.Row))
    (sc : Str) (fns nc : List Str) (row : Marker.Row) (gname : Str)
    (h1 : lookupA m (ApplyTranslation.normalize_name
      (ApplyTranslation.get_student_name_from_row row sc fns)) = some gname)
    (h2 : lookupA g gname = none)
    (hkeys : ∀ p ∈ row, p.1 ∈ fns) :
    ApplyTranslation.processRow m g sc fns nc row = (row, false) ∧
    (∀ c ∈ fns, rowGet (projectRow (ApplyTranslation.updatedFieldnamesOf fns nc) row) c =
      rowGet row c) ∧
    (∀ c ∈ nc, c ∉ fns →
      rowGet (projectRow (ApplyTranslation.updatedFieldnamesOf fns nc) row) c = []) := by
  refine ⟨?_, ?_, ?_⟩
  · simp only [ApplyTranslation.processRow, h1, h2]
  · intro c hc
    exact rowGet_projectRow _ _ _ (ApplyTranslation.mem_updatedFieldnames_left _ _ _ hc)
  · intro c hc hcf
    rw [rowGet_projectRow _ _ _ (ApplyTranslation.mem_updatedFieldnames_right _ _ _ hc)]
    unfold rowGet
    rw [lookupA_eq_none row c (fun p hp he => hcf (he ▸ hkeys p hp))]
    rfl

/-- Witness for C9: a mapping entry pointing at a grades name that is not in
the grades table leaves the row untouched and blank-fills the new column. -/
theorem at_dangling_mapping_noop_witness :
    (lookupA [(chars ("jane doe"), chars ("Jane Doe"))]
      (ApplyTranslation.normalize_name (ApplyTranslation.get_student_name_from_row
        [(chars ("Student Name"), chars ("Jane Doe"))] (chars ("Student Name"))
        [chars ("Student Name")])) = some (chars ("Jane Doe"))) ∧
    (lookupA ([] : List (Str × Marker.Row)) (chars ("Jane Doe")) = none) ∧
    (ApplyTranslation.processRow [(chars ("jane doe"), chars ("Jane Doe"))] []
      (chars ("Student Name")) [chars ("Student Name")] [chars ("Total Mark")]
      [(chars ("Student Name"), chars ("Jane Doe"))] =
      ([(chars ("Student Name"), chars ("Jane Doe"))], false) ∧
    (∀ c ∈ [chars ("Student Name")],
      rowGet (projectRow (ApplyTranslation.updatedFieldnamesOf [chars ("Student Name")]
        [chars ("Total Mark")]) [(chars ("Student Name"), chars ("Jane Doe"))]) c =
      rowGet [(chars ("Student Name"), chars ("Jane Doe"))] c) ∧
    (∀ c ∈ [chars ("Total Mark")], c ∉ [chars ("Student Name")] →
      rowGet (projectRow (ApplyTranslation.updatedFieldnamesOf [chars ("Student Name")]
        [chars ("Total Mark")]) [(chars ("Student Name"), chars ("Jane Doe"))]) c = [])) :=
  ⟨by decide, by decide,
   at_dangling_mapping_noop [(chars ("jane doe"), chars ("Jane Doe"))] []
     (chars ("Student Name")) [chars ("Student Name")] [chars ("Total Mark")]
     [(chars ("Student Name"), chars ("Jane Doe"))] (chars ("Jane Doe"))
     (by decide) (by decide) (by decide)⟩

/-- Claim C3: whenever some first-name alias column and some last-name alias
column are both present in the (BOM-normalized) row with non-empty stripped
values, `get_student_name_from_row` returns the stripped first-name value and
the stripped last-name value joined by exactly one space, for every declared
student column. -/
theorem at_name_extractor_first_last (row : Marker.Row) (student_col : Str) (fns : List Str)
    (hf : ∃ c ∈ ApplyTranslation.firstNameCols,
      rowHas (ApplyTranslation.normRowKeys row) c = true ∧
      trimPy (rowGet (ApplyTranslation.normRowKeys row) c) ≠ [])
    (hl : ∃ c ∈ ApplyTranslation.lastNameCols,
      rowHas (ApplyTranslation.normRowKeys row) c = true ∧
      trimPy (rowGet (ApplyTranslation.normRowKeys row) c) ≠ []) :
    ∃ cf ∈ ApplyTranslation.firstNameCols, ∃ cl ∈ ApplyTranslation.lastNameCols,
      ApplyTranslation.get_student_name_from_row row student_col fns =
        trimPy (rowGet (ApplyTranslation.normRowKeys row) cf) ++
          ' ' :: trimPy (rowGet (ApplyTranslation.normRowKeys row) cl) := by
  obtain ⟨cf, hcfm, hcf1, hcf2, hcfe⟩ := ApplyTranslation.scanAlias_spec _ _ hf
  obtain ⟨cl, hclm, hcl1, hcl2, hcle⟩ := ApplyTranslation.scanAlias_spec _ _ hl
  refine ⟨cf, hcfm, cl, hclm, ?_⟩
  simp only [ApplyTranslation.get_student_name_from_row]
  rw [hcfe, hcle]
  rw [if_pos ⟨hcf2, hcl2⟩]

/-- Witness for C3: a Moodle-style row with a BOM-prefixed first-name header
and whitespace-padded values yields the clean single-space join, ignoring the
declared (and present) student column. -/
theorem at_name_extractor_first_last_witness :
    (∃ c ∈ ApplyTranslation.firstNameCols,
      rowHas (ApplyTranslation.normRowKeys
        [(chars ("\uFEFFFirst name"), chars (" Jane ")),
         (chars ("Last name"), chars ("Doe  ")),
         (chars ("Student Name"), chars ("WRONG"))]) c = true ∧
      trimPy (rowGet (ApplyTranslation.normRowKeys
        [(chars ("\uFEFFFirst name"), chars (" Jane ")),
         (chars ("Last name"), chars ("Doe  ")),
         (chars ("Student Name"), chars ("WRONG"))]) c) ≠ []) ∧
    (∃ c ∈ ApplyTranslation.lastNameCols,
      rowHas (ApplyTranslation.normRowKeys
        [(chars ("\uFEFFFirst name"), chars (" Jane ")),
         (chars ("Last name"), chars ("Doe  ")),
         (chars ("Student Name"), chars ("WRONG"))]) c = true ∧
      trimPy (rowGet (ApplyTranslation.normRowKeys
        [(chars ("\uFEFFFirst name"), chars (" Jane ")),
         (chars ("Last name"), chars ("Doe  ")),
         (chars ("Student Name"), chars ("WRONG"))]) c) ≠ []) ∧
    (∃ cf ∈ ApplyTranslation.firstNameCols, ∃ cl ∈ ApplyTranslation.lastNameCols,
      ApplyTranslation.get_student_name_from_row
        [(chars ("\uFEFFFirst name"), chars (" Jane ")),
         (chars ("Last name"), chars ("Doe  ")),
         (chars ("Student Name"), chars ("WRONG"))] (chars ("Student Name"))
        [chars ("\uFEFFFirst name"), chars ("Last name"), chars ("Student Name")] =
        trimPy (rowGet (ApplyTranslation.normRowKeys
          [(chars ("\uFEFFFirst name"), chars (" Jane ")),
           (chars ("Last name"), chars ("Doe  ")),
           (chars ("Student Name"), chars ("WRONG"))]) cf) ++
          ' ' :: trimPy (rowGet (ApplyTranslation.normRowKeys
            [(chars ("\uFEFFFirst name"), chars (" Jane ")),
             (chars ("Last name"), chars ("Doe  ")),
             (chars ("Student Name"), chars ("WRONG"))]) cl)) :=
  ⟨by decide, by decide,
   at_name_extractor_first_last _ _ _ (by decide) (by decide)⟩

namespace Marker

theorem getD_map_of_lt {α β : Type} (l : List α) (f : α → β) (i : Nat)
    (h : i < l.length) (d : β) (d2 : α) : (l.map f).getD i d = f (l.getD i d2) := by
  induction l generalizing i with
  | nil => cases h
  | cons a rest ih =>
    cases i with
    | zero => rfl
    | succ j =>
      simp only [List.map_cons, List.getD_cons_succ]
      exact ih j (by simpa using h)

theorem getD_mem_of_lt {α : Type} (l : List α) (i : Nat) (h : i < l.length) (d : α) :
    l.getD i d ∈ l := by
  induction l generalizing i with
  | nil => cases h
  | cons a rest ih =>
    cases i with
    | zero => simp
    | succ j =>
      simp only [List.getD_cons_succ]
      exact List.mem_cons_of_mem _ (ih j (by simpa using h))

end Marker

namespace ApplyTranslation

open Marker

theorem rowGet_processRow_fst (m : List (Str × Str)) (g : List (Str × Marker.Row))
    (sc : Str) (fns nc : List Str) (row : Marker.Row) (c : Str) (h : c ∉ nc) :
    rowGet ((processRow m g sc fns nc row).1) c = rowGet row c := by
  simp only [processRow]
  cases h1 : lookupA m (normalize_name (get_student_name_from_row row sc fns)) with
  | none => rfl
  | some gn =>
    cases h2 : lookupA g gn with
    | none => simp only [h2]
    | some gd =>
      simp only [h2]
      exact rowGet_updateRowWithGrades nc gd row c h

theorem written_row_eq (cfg : GradebookConfig) (grades : List (Str × Marker.Row))
    (fieldnames : List Str) (rows : List Marker.Row) (i : Nat) (hi : i < rows.length) :
    (apply_gradebook_updates cfg grades fieldnames rows).1.getD i [] =
      projectRow (updatedFieldnamesOf fieldnames (newColumnsOf cfg))
        ((processRow (mappingOf cfg) grades cfg.studentColumn fieldnames
          (newColumnsOf cfg) (rows.getD i [])).1) := by
  show ((rows.map (processRow (mappingOf cfg) grades cfg.studentColumn fieldnames
      (newColumnsOf cfg))).map
      (fun p => projectRow (updatedFieldnamesOf fieldnames (newColumnsOf cfg)) p.1)).getD i [] = _
  rw [getD_map_of_lt _ _ i (by simpa using hi) [] ((rows.getD i []), false)]
  rw [getD_map_of_lt _ _ i hi _ []]

end ApplyTranslation

/-- Claim C1: the merge writes exactly one output row per input row in the
same order, the output header starts with every pre-existing column in order,
every field of a pre-existing column that is not in `columns_to_add` is
written unchanged in every row, and a row to which no update was applied is
written with all its pre-existing fields unchanged and the empty string in
every genuinely new column. -/
theorem at_merge_frame (cfg : ApplyTranslation.GradebookConfig)
    (grades : List (Str × Marker.Row)) (fieldnames : List Str) (rows : List Marker.Row)
    (hkeys : ∀ row ∈ rows, ∀ p ∈ row, p.1 ∈ fieldnames) :
    (ApplyTranslation.apply_gradebook_updates cfg grades fieldnames rows).1.length = rows.length ∧
    (ApplyTranslation.apply_gradebook_updates cfg grades fieldnames rows).2.totalStudents = rows.length ∧
    (∀ w ∈ (ApplyTranslation.apply_gradebook_updates cfg grades fieldnames rows).1,
      ∃ extra, w.map (fun p => p.1) = fieldnames ++ extra) ∧
    (∀ i, i < rows.length → ∀ c ∈ fieldnames, c ∉ ApplyTranslation.newColumnsOf cfg →
      rowGet ((ApplyTranslation.apply_gradebook_updates cfg grades fieldnames rows).1.getD i []) c =
        rowGet (rows.getD i []) c) ∧
    (∀ i, i < rows.length →
      (ApplyTranslation.processRow (ApplyTranslation.mappingOf cfg) grades cfg.studentColumn
        fieldnames (ApplyTranslation.newColumnsOf cfg) (rows.getD i [])).2 = false →
      (∀ c ∈ fieldnames,
        rowGet ((ApplyTranslation.apply_gradebook_updates cfg grades fieldnames rows).1.getD i []) c =
          rowGet (rows.getD i []) c) ∧
      (∀ c ∈ ApplyTranslation.newColumnsOf cfg, c ∉ fieldnames →
        rowGet ((ApplyTranslation.apply_gradebook_updates cfg grades fieldnames rows).1.getD i []) c = [])) := by
  refine ⟨by simp [ApplyTranslation.apply_gradebook_updates], rfl, ?_, ?_, ?_⟩
  · intro w hw
    simp only [ApplyTranslation.apply_gradebook_updates, List.mem_map] at hw
    obtain ⟨p, _, hp⟩ := hw
    obtain ⟨extra, he⟩ := ApplyTranslation.updatedFieldnames_suffix (ApplyTranslation.newColumnsOf cfg) fieldnames
    refine ⟨extra, ?_⟩
    rw [← hp, keys_projectRow, he]
  · intro i hi c hcf hcn
    rw [ApplyTranslation.written_row_eq cfg grades fieldnames rows i hi]
    rw [rowGet_projectRow _ _ _ (ApplyTranslation.mem_updatedFieldnames_left _ _ _ hcf)]
    exact ApplyTranslation.rowGet_processRow_fst _ _ _ _ _ _ _ hcn
  · intro i hi hfalse
    have hrow := ApplyTranslation.processRow_snd_false (ApplyTranslation.mappingOf cfg) grades
      cfg.studentColumn fieldnames (ApplyTranslation.newColumnsOf cfg) (rows.getD i []) hfalse
    constructor
    · intro c hcf
      rw [ApplyTranslation.written_row_eq cfg grades fieldnames rows i hi, hrow]
      exact rowGet_projectRow _ _ _ (ApplyTranslation.mem_updatedFieldnames_left _ _ _ hcf)
    · intro c hcn hcf
      rw [ApplyTranslation.written_row_eq cfg grades fieldnames rows i hi, hrow]
      rw [rowGet_projectRow _ _ _ (ApplyTranslation.mem_updatedFieldnames_right _ _ _ hcn)]
      unfold rowGet
      rw [lookupA_eq_none (rows.getD i []) c
        (fun p hp he => hcf (he ▸ hkeys _ (getD_mem_of_lt rows i hi []) p hp))]
      rfl

/-- Witness for C1 at a concrete two-row gradebook with one matched and one
unmatched student. -/
theorem at_merge_frame_witness :
    (∀ row ∈ Examples.rowsW, ∀ p ∈ row, p.1 ∈ Examples.fnsW) ∧
    ((ApplyTranslation.apply_gradebook_updates Examples.cfgW Examples.gradesW
        Examples.fnsW Examples.rowsW).1.length = Examples.rowsW.length ∧
    (ApplyTranslation.apply_gradebook_updates Examples.cfgW Examples.gradesW
        Examples.fnsW Examples.rowsW).2.totalStudents = Examples.rowsW.length ∧
    (∀ w ∈ (ApplyTranslation.apply_gradebook_updates Examples.cfgW Examples.gradesW
        Examples.fnsW Examples.rowsW).1,
      ∃ extra, w.map (fun p => p.1) = Examples.fnsW ++ extra) ∧
    (∀ i, i < Examples.rowsW.length → ∀ c ∈ Examples.fnsW,
      c ∉ ApplyTranslation.newColumnsOf Examples.cfgW →
      rowGet ((ApplyTranslation.apply_gradebook_updates Examples.cfgW Examples.gradesW
        Examples.fnsW Examples.rowsW).1.getD i []) c =
        rowGet (Examples.rowsW.getD i []) c) ∧
    (∀ i, i < Examples.rowsW.length →
      (ApplyTranslation.processRow (ApplyTranslation.mappingOf Examples.cfgW) Examples.gradesW
        Examples.cfgW.studentColumn Examples.fnsW
        (ApplyTranslation.newColumnsOf Examples.cfgW) (Examples.rowsW.getD i [])).2 = false →
      (∀ c ∈ Examples.fnsW,
        rowGet ((ApplyTranslation.apply_gradebook_updates Examples.cfgW Examples.gradesW
          Examples.fnsW Examples.rowsW).1.getD i []) c =
          rowGet (Examples.rowsW.getD i []) c) ∧
      (∀ c ∈ ApplyTranslation.newColumnsOf Examples.cfgW, c ∉ Examples.fnsW →
        rowGet ((ApplyTranslation.apply_gradebook_updates Examples.cfgW Examples.gradesW
          Examples.fnsW Examples.rowsW).1.getD i []) c = []))) :=
  ⟨by decide, at_merge_frame Examples.cfgW Examples.gradesW Examples.fnsW Examples.rowsW (by decide)⟩

/-- Claim C7, counterexample: neither `normalize_name` is idempotent.  The
translation applicator's normalizer maps a string whose byte-order mark sits
after a leading space to a string that STARTS with the mark, which a second
application then strips; and the `apply_grades` normalizer can expose a second
`Lab NN` prefix that a second application removes. -/
theorem normalize_idempotent_cex :
    ApplyTranslation.normalize_name (ApplyTranslation.normalize_name (chars (" \uFEFFx"))) ≠
      ApplyTranslation.normalize_name (chars (" \uFEFFx")) ∧
    ApplyGrades.normalize_name (ApplyGrades.normalize_name (chars ("Lab 1 Lab 2 x"))) ≠
      ApplyGrades.normalize_name (chars ("Lab 1 Lab 2 x")) := by
  exact ⟨by decide, by decide⟩

/-- Claim C7, amended: the translation applicator's `normalize_name` is
idempotent on every input in which no byte-order mark occurs after the
leading run of byte-order marks (in particular on every BOM-free input and on
every input whose only BOM is a file-initial one). -/
theorem at_normalize_idempotent_no_inner_bom (n : Str) (h : '\uFEFF' ∉ stripBom n) :
    ApplyTranslation.normalize_name (ApplyTranslation.normalize_name n) =
      ApplyTranslation.normalize_name n := by
  have hb : '\uFEFF' ∉ ApplyTranslation.normalize_name n := ApplyTranslation.normalize_name_no_bom n h
  have hc : ',' ∉ ApplyTranslation.normalize_name n := ApplyTranslation.normalize_name_no_comma n
  conv_lhs => rw [ApplyTranslation.normalize_name_unfolded]
  rw [stripBom_eq_self _ hb, replaceComma_eq_self _ hc,
    ApplyTranslation.words_normalize_name n, ← joinW_map_lower, lowerStr_lowerStr]
  exact (ApplyTranslation.normalize_name_unfolded n).symm

/-- Witness for C7's amended theorem on a comma-and-whitespace-contaminated
BOM-free name. -/
theorem at_normalize_idempotent_no_inner_bom_witness :
    ('\uFEFF' ∉ stripBom (chars ("Jane,  DOE"))) ∧
    ApplyTranslation.normalize_name (ApplyTranslation.normalize_name (chars ("Jane,  DOE"))) =
      ApplyTranslation.normalize_name (chars ("Jane,  DOE")) :=
  ⟨by decide, at_normalize_idempotent_no_inner_bom _ (by decide)⟩

/-- Claim C10: the fuzzy matcher's own normalizer always returns a
whitespace-normal string — its output is exactly the single-space join of its
words, and stripping is a no-op on it — and on names contaminated by the
known lab/course titles, 7-digit identifier sequences, or parenthesized
text, it returns the clean underlying name, as the concrete instances show
for each contamination kind and their combination. -/
theorem fg_normalize_cleans :
    (∀ s : Str, FixGrades.normalize_name s = joinW (words (FixGrades.normalize_name s)) ∧
      trimPy (FixGrades.normalize_name s) = FixGrades.normalize_name s) ∧
    FixGrades.normalize_name (chars ("Lab 03 John Smith")) = chars ("John Smith") ∧
    FixGrades.normalize_name (chars ("Soft Margin SVMs and Kernels John Smith")) = chars ("John Smith") ∧
    FixGrades.normalize_name (chars ("John Smith 1234567")) = chars ("John Smith") ∧
    FixGrades.normalize_name (chars ("John Smith (resubmission)")) = chars ("John Smith") ∧
    FixGrades.normalize_name (chars ("Clustering 3510F25 Jane Doe (late) 7654321")) = chars ("Jane Doe") := by
  constructor
  · intro s
    obtain ⟨x, hx⟩ : ∃ x, FixGrades.normalize_name s = trimPy (joinW (words x)) := ⟨_, rfl⟩
    rw [hx, trimPy_joinW_words]
    constructor
    · rw [words_joinW (words x)
        (fun t ht => ⟨(words_sound x t ht).1, (words_sound x t ht).2.1⟩)]
    · exact trimPy_joinW_words x
  · exact ⟨by decide, by decide, by decide, by decide, by decide⟩
